import Mathlib

/-!
Verification of the `tess` OPC/DOCX package-explorer core against its
natural-language specification.

The development shallowly embeds the core TypeScript modules
(`src/core/jszip-lite.ts`, `src/core/xml-parser.ts`,
`src/core/relationships.ts`, `src/core/reference-map.ts`,
`src/core/zip-loader.ts`) into Lean.  JavaScript strings are modelled by
Lean `String` (operating on their character lists, which matches the
ASCII paths and attribute names this program manipulates); JavaScript
records (objects used as maps) are modelled by association lists with
JS assignment semantics (update in place, append if absent); thrown
exceptions become `Except` errors.  Platform primitives that are not
part of the repository — raw DEFLATE, `TextDecoder`, `DOMParser`,
calendar `Date` construction — are abstracted as explicit function
parameters or raw data, exactly at the call sites where the source
invokes them.
-/

deriving instance DecidableEq for Except

namespace Tess

/-! ## JavaScript string and record primitives -/

/-- Character-level splitting on `'/'`, with JavaScript `split('/')`
semantics: the empty string yields one empty segment, separators at the
ends yield empty segments. -/
def splitChars : List Char → List (List Char)
  | [] => [[]]
  | c :: cs =>
    if c = '/' then [] :: splitChars cs
    else
      match splitChars cs with
      | [] => [[c]]
      | s :: rest => (c :: s) :: rest

/-- Character-level join with `'/'` separators (JavaScript
`Array.prototype.join('/')`). -/
def joinChars : List (List Char) → List Char
  | [] => []
  | [s] => s
  | s :: t :: rest => s ++ '/' :: joinChars (t :: rest)

/-- JavaScript `path.split('/')`. -/
def jsSplit (s : String) : List String :=
  (splitChars s.toList).map (fun l => String.mk l)

/-- JavaScript `segments.join('/')`. -/
def jsJoin : List String → String
  | [] => ""
  | [s] => s
  | s :: t :: rest => s ++ "/" ++ jsJoin (t :: rest)

/-- JavaScript `s.toLowerCase()` (ASCII case mapping, which covers every
attribute name and path this program compares). -/
def jsToLower (s : String) : String :=
  String.mk (s.toList.map Char.toLower)

/-- JavaScript `s.endsWith(suffix)`. -/
def jsEndsWith (s suffix : String) : Bool :=
  suffix.toList.isSuffixOf s.toList

/-- Index of the last occurrence of `x` in `l` (JavaScript `lastIndexOf`,
with `none` for the JavaScript result `-1`). -/
def lastIndexOf? {α : Type} [DecidableEq α] : List α → α → Option ℕ
  | [], _ => none
  | y :: ys, x =>
    match lastIndexOf? ys x with
    | some i => some (i + 1)
    | none => if y = x then some 0 else none

/-- Lookup in a JavaScript record modelled as an association list. -/
def recordGet {α : Type} (l : List (String × α)) (k : String) : Option α :=
  (l.find? (fun p => decide (p.1 = k))).map (·.2)

/-- JavaScript record assignment `r[k] = v`: update in place if the key
is present, append otherwise. -/
def recordSet {α : Type} : List (String × α) → String → α → List (String × α)
  | [], k, v => [(k, v)]
  | (k', v') :: rest, k, v =>
    if k' = k then (k, v) :: rest else (k', v') :: recordSet rest k v

/-- JavaScript null-coalescing `a ?? b` on nullable values. -/
def jsOr {α : Type} : Option α → Option α → Option α
  | some x, _ => some x
  | none, b => b

/-! ## Embedding of `src/core/relationships.ts` -/

/-- One `<Relationship>` record (`Relationship` in `relationships.ts`). -/
structure Relationship where
  id : String
  target : String
  type : Option String
  targetMode : Option String
  source : String
  deriving DecidableEq, Repr

/-- `RelationshipMap = Record<string, Relationship>`. -/
abbrev RelationshipMap : Type := List (String × Relationship)

/-- A relationship together with its resolved absolute target
(`IndexedRelationship`). -/
structure IndexedRelationship extends Relationship where
  resolvedTarget : String
  deriving DecidableEq, Repr

/-- `RelationshipsBySource = Record<string, Record<string, IndexedRelationship>>`. -/
abbrev RelationshipsBySource : Type :=
  List (String × List (String × IndexedRelationship))

/-- The segment stack built by `normalizeTargetPath`'s loop: skip empty
and `.` segments, pop on `..` (a no-op on the empty stack, as for
`Array.prototype.pop`), push anything else. -/
def normalizeStack (parts : List String) : List String :=
  parts.foldl
    (fun stack part =>
      if part = "" ∨ part = "." then stack
      else if part = ".." then stack.dropLast
      else stack ++ [part])
    []

/-- `normalizeTargetPath` from `relationships.ts`. -/
def normalizeTargetPath (path : String) : String :=
  jsJoin (normalizeStack (jsSplit path))

/-- `sourcePathFromRelationshipsPath` from `relationships.ts`: derive the
owner document path of a `.rels` part.  `segments.pop()` is modelled by
`getLast?`/`dropLast` (`split` never returns an empty array, so the
JavaScript `?? ''` default is kept as `getD ""`).  `lastIndexOf('_rels')`
is computed on the segments before the pop, exactly as in the source. -/
def sourcePathFromRelationshipsPath (path : String) : String :=
  let segments := jsSplit path
  let relsIndex := lastIndexOf? segments "_rels"
  let filename := segments.getLast?.getD ""
  let rest := segments.dropLast
  let baseName :=
    if jsEndsWith filename ".rels" then
      String.mk (filename.toList.take (filename.toList.length - 5))
    else filename
  let folder :=
    match relsIndex with
    | none => jsJoin rest
    | some i => jsJoin (rest.take i)
  if baseName = ".rels" ∧ folder = "" then ""
  else if folder = "" then baseName
  else folder ++ "/" ++ baseName

/-- `resolveRelationshipTarget` from `relationships.ts`.  The guard
`if (!target) return ''` fires exactly on the empty target;
`target.startsWith('/')` is the head-character test; the owner folder is
`sourcePath.slice(0, sourcePath.lastIndexOf('/') + 1)` when the source
path contains a `/` and empty otherwise. -/
def resolveRelationshipTarget (sourcePath target : String) : String :=
  if target = "" then ""
  else if target.toList.head? = some '/' then
    normalizeTargetPath (String.mk target.toList.tail)
  else
    let folder :=
      match lastIndexOf? sourcePath.toList '/' with
      | some i => String.mk (sourcePath.toList.take (i + 1))
      | none => ""
    normalizeTargetPath (folder ++ target)

/-- The body of `buildRelationshipsBySource`'s inner loop: compute
`resolvedTarget` (raw target for `TargetMode` equal to `"external"`
after lowercasing, resolved against the owner folder otherwise) and
extend the relationship record with it. -/
def indexRelationship (sourcePath : String) (rel : Relationship) :
    IndexedRelationship :=
  let resolvedTarget :=
    if rel.targetMode.map jsToLower = some "external" then rel.target
    else resolveRelationshipTarget sourcePath rel.target
  { rel with resolvedTarget }

/-- One iteration of `buildRelationshipsBySource`'s outer loop over a
`(relsPath, relationship values)` entry: derive the owner path, fetch or
create its target map, insert every relationship keyed by id. -/
def addRelsPart (indexed : RelationshipsBySource)
    (entry : String × List Relationship) : RelationshipsBySource :=
  let sourcePath := sourcePathFromRelationshipsPath entry.1
  let targetMap :=
    entry.2.foldl
      (fun tm rel => recordSet tm rel.id (indexRelationship sourcePath rel))
      ((recordGet indexed sourcePath).getD [])
  recordSet indexed sourcePath targetMap

/-- `buildRelationshipsBySource` from `relationships.ts`.  The outer
record iteration is `Object.entries`, the inner one `Object.values`;
both are modelled by list folds in insertion order, and the aliased
mutation of `targetMap` by a functional re-insertion of the updated
inner record. -/
def buildRelationshipsBySource
    (relationships : List (String × List Relationship)) :
    RelationshipsBySource :=
  relationships.foldl addRelsPart []

/-! ## Basic lemmas about the string primitives -/

theorem mk_toList (s : String) : String.mk s.toList = s := by
  cases s
  rfl

theorem toList_mk (l : List Char) : (String.mk l).toList = l := rfl

theorem toList_append (s t : String) : (s ++ t).toList = s.toList ++ t.toList :=
  String.data_append s t

theorem splitChars_ne_nil (cs : List Char) : splitChars cs ≠ [] := by
  cases cs with
  | nil => simp [splitChars]
  | cons c cs =>
    simp only [splitChars]
    split
    · simp
    · split <;> simp

theorem mem_splitChars_no_slash (cs : List Char) :
    ∀ s ∈ splitChars cs, '/' ∉ s := by
  induction cs with
  | nil =>
    intro s hs
    simp [splitChars] at hs
    simp [hs]
  | cons c cs ih =>
    intro s hs
    simp only [splitChars] at hs
    by_cases hc : c = '/'
    · rw [if_pos hc] at hs
      rcases List.mem_cons.mp hs with hs | hs
      · simp [hs]
      · exact ih s hs
    · rw [if_neg hc] at hs
      rcases hrec : splitChars cs with _ | ⟨s0, rest⟩
      · exact absurd hrec (splitChars_ne_nil cs)
      · rw [hrec] at hs
        rcases List.mem_cons.mp hs with hs | hs
        · subst hs
          intro hmem
          rcases List.mem_cons.mp hmem with h | h
          · exact hc h.symm
          · exact ih s0 (hrec ▸ List.mem_cons_self s0 rest) h
        · exact ih s (hrec ▸ List.mem_cons_of_mem s0 hs)

theorem splitChars_append (x : List Char) (hx : '/' ∉ x) (t s : List Char)
    (rest : List (List Char)) (ht : splitChars t = s :: rest) :
    splitChars (x ++ t) = (x ++ s) :: rest := by
  induction x with
  | nil => simpa using ht
  | cons c cs ih =>
    have hc : ¬c = '/' := fun h => hx (h ▸ List.mem_cons_self c cs)
    have hcs : '/' ∉ cs := fun h => hx (List.mem_cons_of_mem c h)
    rw [List.cons_append]
    simp only [splitChars, if_neg hc]
    rw [ih hcs]
    rfl

theorem splitChars_joinChars (l : List (List Char)) (hne : l ≠ [])
    (hs : ∀ x ∈ l, '/' ∉ x) : splitChars (joinChars l) = l := by
  induction l with
  | nil => exact absurd rfl hne
  | cons x rest ih =>
    have hx : '/' ∉ x := hs x (List.mem_cons_self _ _)
    cases rest with
    | nil =>
      have : splitChars (x ++ []) = (x ++ []) :: [] :=
        splitChars_append x hx [] [] [] rfl
      simpa [joinChars] using this
    | cons y l' =>
      have hrec : splitChars (joinChars (y :: l')) = y :: l' :=
        ih (List.cons_ne_nil y l')
          (fun z hz => hs z (List.mem_cons_of_mem x hz))
      have hslash : splitChars ('/' :: joinChars (y :: l')) = [] :: y :: l' := by
        simp [splitChars, hrec]
      have := splitChars_append x hx ('/' :: joinChars (y :: l')) [] (y :: l') hslash
      simpa [joinChars] using this

theorem jsJoin_toList (l : List String) :
    (jsJoin l).toList = joinChars (l.map String.toList) := by
  match l with
  | [] => rfl
  | [s] => rfl
  | s :: t :: rest =>
    have ih := jsJoin_toList (t :: rest)
    have hsl : ("/" : String).toList = ['/'] := rfl
    simp only [jsJoin, joinChars, List.map_cons, toList_append, ih, hsl,
      List.append_assoc, List.singleton_append]

theorem map_mk_toList (l : List String) :
    List.map (fun d => String.mk d) (List.map String.toList l) = l := by
  induction l with
  | nil => rfl
  | cons x xs ih => simp only [List.map_cons, mk_toList, ih]

theorem jsSplit_jsJoin (l : List String) (hne : l ≠ [])
    (hs : ∀ x ∈ l, '/' ∉ x.toList) : jsSplit (jsJoin l) = l := by
  have h1 : splitChars (joinChars (l.map String.toList)) = l.map String.toList := by
    apply splitChars_joinChars
    · simpa using hne
    · intro x hx
      rcases List.mem_map.mp hx with ⟨y, hy, rfl⟩
      exact hs y hy
  unfold jsSplit
  rw [jsJoin_toList, h1]
  exact map_mk_toList l

theorem mem_jsSplit_no_slash (s : String) :
    ∀ seg ∈ jsSplit s, '/' ∉ seg.toList := by
  intro seg hseg
  rcases List.mem_map.mp hseg with ⟨l, hl, rfl⟩
  rw [toList_mk]
  exact mem_splitChars_no_slash s.toList l hl

/-- The well-formedness of every element that `normalizeTargetPath`'s
stack can contain. -/
def GoodSeg (q : String) : Prop :=
  q ≠ "" ∧ q ≠ "." ∧ q ≠ ".." ∧ '/' ∉ q.toList

theorem normalizeStack_fold_good (parts : List String)
    (hparts : ∀ p ∈ parts, '/' ∉ p.toList) :
    ∀ init : List String, (∀ q ∈ init, GoodSeg q) →
      ∀ q ∈ parts.foldl
        (fun stack part =>
          if part = "" ∨ part = "." then stack
          else if part = ".." then stack.dropLast
          else stack ++ [part])
        init, GoodSeg q := by
  induction parts with
  | nil => intro init hinit q hq; exact hinit q hq
  | cons p ps ih =>
    intro init hinit q hq
    have hp : '/' ∉ p.toList := hparts p (List.mem_cons_self _ _)
    have hps : ∀ x ∈ ps, '/' ∉ x.toList :=
      fun x hx => hparts x (List.mem_cons_of_mem p hx)
    rw [List.foldl_cons] at hq
    by_cases h1 : p = "" ∨ p = "."
    · rw [if_pos h1] at hq
      exact ih hps init hinit q hq
    · rw [if_neg h1] at hq
      by_cases h2 : p = ".."
      · rw [if_pos h2] at hq
        refine ih hps init.dropLast ?_ q hq
        intro x hx
        exact hinit x (init.dropLast_sublist.subset hx)
      · rw [if_neg h2] at hq
        refine ih hps (init ++ [p]) ?_ q hq
        intro x hx
        rcases List.mem_append.mp hx with hx | hx
        · exact hinit x hx
        · rcases List.mem_singleton.mp hx with rfl
          push_neg at h1
          exact ⟨h1.1, h1.2, h2, hp⟩

theorem normalizeStack_good (path : String) :
    ∀ q ∈ normalizeStack (jsSplit path), GoodSeg q :=
  normalizeStack_fold_good (jsSplit path) (mem_jsSplit_no_slash path) [] (by simp)

/-- A normalized in-package path: no `.` or `..` segments and no leading
slash. -/
def isNormalizedPath (s : String) : Prop :=
  (∀ seg ∈ jsSplit s, seg ≠ "." ∧ seg ≠ "..") ∧ s.toList.head? ≠ some '/'

instance (s : String) : Decidable (isNormalizedPath s) := by
  unfold isNormalizedPath
  exact instDecidableAnd

theorem isNormalizedPath_normalizeTargetPath (path : String) :
    isNormalizedPath (normalizeTargetPath path) := by
  unfold normalizeTargetPath
  have hgood := normalizeStack_good path
  rcases hstack : normalizeStack (jsSplit path) with _ | ⟨x, rest⟩
  · decide
  · rw [hstack] at hgood
    have hx := hgood x (List.mem_cons_self _ _)
    have hsplit : jsSplit (jsJoin (x :: rest)) = x :: rest := by
      refine jsSplit_jsJoin (x :: rest) (List.cons_ne_nil _ _) ?_
      intro y hy
      exact (hgood y hy).2.2.2
    constructor
    · intro seg hseg
      rw [hsplit] at hseg
      exact ⟨(hgood seg hseg).2.1, (hgood seg hseg).2.2.1⟩
    · have hxl : x.toList ≠ [] := by
        intro h
        exact hx.1 (by rw [← mk_toList x, h])
      rcases hx0 : x.toList with _ | ⟨c, cs⟩
      · exact absurd hx0 hxl
      have hc : ¬c = '/' := by
        intro h
        exact hx.2.2.2 (by rw [hx0, h]; exact List.mem_cons_self _ _)
      have hhead : (jsJoin (x :: rest)).toList.head? = some c := by
        rw [jsJoin_toList]
        cases rest with
        | nil =>
          simp only [List.map_cons, List.map_nil]
          rw [show joinChars [x.toList] = x.toList from rfl, hx0]
          rfl
        | cons y ys =>
          simp only [List.map_cons]
          rw [show joinChars (x.toList :: y.toList :: List.map String.toList ys) =
            x.toList ++ '/' :: joinChars (y.toList :: List.map String.toList ys) from rfl]
          rw [hx0]
          rfl
      rw [hhead]
      intro h
      exact hc (Option.some_inj.mp h)

theorem isNormalizedPath_resolveRelationshipTarget (s t : String) :
    isNormalizedPath (resolveRelationshipTarget s t) := by
  unfold resolveRelationshipTarget
  split
  · decide
  · split
    · exact isNormalizedPath_normalizeTargetPath _
    · exact isNormalizedPath_normalizeTargetPath _

/-! ## Lemmas about record (JavaScript object) operations -/

theorem recordGet_nil {α : Type} (k : String) :
    recordGet ([] : List (String × α)) k = none := rfl

theorem recordGet_recordSet_self {α : Type} (m : List (String × α))
    (k : String) (v : α) : recordGet (recordSet m k v) k = some v := by
  induction m with
  | nil => simp [recordSet, recordGet]
  | cons p rest ih =>
    obtain ⟨pk, pv⟩ := p
    simp only [recordSet]
    by_cases h : pk = k
    · rw [if_pos h]
      simp [recordGet]
    · rw [if_neg h]
      unfold recordGet
      rw [List.find?_cons_of_neg _ (by simpa using h)]
      exact ih

theorem recordGet_recordSet_ne {α : Type} (m : List (String × α))
    (k : String) (v : α) (k' : String) (h : k' ≠ k) :
    recordGet (recordSet m k v) k' = recordGet m k' := by
  induction m with
  | nil =>
    unfold recordSet recordGet
    rw [List.find?_cons_of_neg _ (by simpa using fun hk => h hk.symm)]
  | cons p rest ih =>
    obtain ⟨pk, pv⟩ := p
    simp only [recordSet]
    by_cases hk : pk = k
    · subst hk
      rw [if_pos rfl]
      unfold recordGet
      rw [List.find?_cons_of_neg _ (by simpa using fun hk2 => h hk2.symm),
        List.find?_cons_of_neg _ (by simpa using fun hk2 => h hk2.symm)]
    · rw [if_neg hk]
      by_cases hpk : pk = k'
      · subst hpk
        unfold recordGet
        rw [List.find?_cons_of_pos _ (by simp),
          List.find?_cons_of_pos _ (by simp)]
      · unfold recordGet
        rw [List.find?_cons_of_neg _ (by simpa using hpk),
          List.find?_cons_of_neg _ (by simpa using hpk)]
        exact ih

theorem recordGet_recordSet_cases {α : Type} (m : List (String × α))
    (k : String) (v : α) (k' : String) (w : α)
    (h : recordGet (recordSet m k v) k' = some w) :
    (k' = k ∧ w = v) ∨ recordGet m k' = some w := by
  by_cases hk : k' = k
  · subst hk
    rw [recordGet_recordSet_self] at h
    exact Or.inl ⟨rfl, (Option.some_inj.mp h).symm⟩
  · rw [recordGet_recordSet_ne m k v k' hk] at h
    exact Or.inr h

/-! ## Claim C2: relationship target resolution -/

/-- The claim's description of the owner folder: the owner path up to
and including its last `/`, or empty when the owner path has none.
This is the computation `resolveRelationshipTarget` inlines. -/
def specFolder (sourcePath : String) : String :=
  match lastIndexOf? sourcePath.toList '/' with
  | some i => String.mk (sourcePath.toList.take (i + 1))
  | none => ""

/-- Target resolution as the claim describes it: a target starting with
`/` is package-root-relative (strip the slash, normalize); any other
target is resolved by concatenating the owner folder and the target and
normalizing.  The claim makes no exception for the empty target. -/
def specResolveTarget (sourcePath target : String) : String :=
  if target.toList.head? = some '/' then
    normalizeTargetPath (String.mk target.toList.tail)
  else normalizeTargetPath (specFolder sourcePath ++ target)

/-- Counterexample to claim C2 as stated: the empty relationship target
does not start with `/`, so by the claim it would resolve to the
normalization of the owner folder (here `"word"`), but
`resolveRelationshipTarget` short-circuits every empty target to `""`
before folder resolution (`if (!target) return ''`). -/
theorem resolveRelationshipTarget_empty_target_counterexample :
    resolveRelationshipTarget "word/document.xml" "" = "" ∧
    specResolveTarget "word/document.xml" "" = "word" ∧
    resolveRelationshipTarget "word/document.xml" "" ≠
      specResolveTarget "word/document.xml" "" := by
  decide

/-- Claim C2, amended: for every non-empty target,
`resolveRelationshipTarget` resolves a target starting with `/` as
package-root-relative and any other target against the owner document's
folder with segment-stack normalization, and the three concrete
resolutions hold; the empty target resolves to `""` instead. -/
theorem resolveRelationshipTarget_spec :
    (∀ sourcePath target : String, target ≠ "" →
      resolveRelationshipTarget sourcePath target =
        specResolveTarget sourcePath target) ∧
    (∀ sourcePath : String, resolveRelationshipTarget sourcePath "" = "") ∧
    resolveRelationshipTarget "word/document.xml" "media/image.png" =
      "word/media/image.png" ∧
    resolveRelationshipTarget "word/document.xml" "/customXml/item1.xml" =
      "customXml/item1.xml" ∧
    resolveRelationshipTarget "word/header1.xml" "../media/image2.png" =
      "media/image2.png" := by
  refine ⟨?_, ?_, by decide, by decide, by decide⟩
  · intro sourcePath target ht
    unfold resolveRelationshipTarget specResolveTarget specFolder
    rw [if_neg ht]
  · intro sourcePath
    unfold resolveRelationshipTarget
    rw [if_pos rfl]

/-- Witness for the amended claim C2 at a concrete non-empty target. -/
theorem resolveRelationshipTarget_spec_witness :
    resolveRelationshipTarget "word/document.xml" "media/image.png" =
      specResolveTarget "word/document.xml" "media/image.png" :=
  resolveRelationshipTarget_spec.1 "word/document.xml" "media/image.png"
    (by decide)

/-! ## Claim C3: the resolvedTarget invariant of the relationship index -/

/-- The invariant claimed of every indexed relationship: external target
mode keeps the raw target, any other mode yields a normalized in-package
path. -/
def GoodIR (ir : IndexedRelationship) : Prop :=
  (ir.targetMode.map jsToLower = some "external" →
    ir.resolvedTarget = ir.target) ∧
  (ir.targetMode.map jsToLower ≠ some "external" →
    isNormalizedPath ir.resolvedTarget)

theorem goodIR_indexRelationship (sourcePath : String) (rel : Relationship) :
    GoodIR (indexRelationship sourcePath rel) := by
  unfold indexRelationship GoodIR
  by_cases h : rel.targetMode.map jsToLower = some "external"
  · rw [if_pos h]
    exact ⟨fun _ => rfl, fun hn => absurd h hn⟩
  · rw [if_neg h]
    refine ⟨fun he => absurd he h, fun _ => ?_⟩
    exact isNormalizedPath_resolveRelationshipTarget _ _

/-- All indexed relationships reachable in a target map are good. -/
def InvTM (tm : List (String × IndexedRelationship)) : Prop :=
  ∀ rid ir, recordGet tm rid = some ir → GoodIR ir

/-- All indexed relationships reachable in the index are good. -/
def InvRBS (rbs : RelationshipsBySource) : Prop :=
  ∀ owner tm, recordGet rbs owner = some tm → InvTM tm

theorem invTM_fold (sourcePath : String) (rels : List Relationship) :
    ∀ tm0, InvTM tm0 →
      InvTM (rels.foldl
        (fun tm rel => recordSet tm rel.id (indexRelationship sourcePath rel))
        tm0) := by
  induction rels with
  | nil => intro tm0 h; exact h
  | cons r rs ih =>
    intro tm0 h0
    rw [List.foldl_cons]
    refine ih _ ?_
    intro rid ir hir
    rcases recordGet_recordSet_cases _ _ _ _ _ hir with ⟨_, rfl⟩ | hold
    · exact goodIR_indexRelationship sourcePath r
    · exact h0 rid ir hold

theorem invRBS_addRelsPart (rbs : RelationshipsBySource)
    (entry : String × List Relationship) (hinv : InvRBS rbs) :
    InvRBS (addRelsPart rbs entry) := by
  unfold addRelsPart
  intro owner tm htm
  rcases recordGet_recordSet_cases _ _ _ _ _ htm with ⟨_, rfl⟩ | hold
  · refine invTM_fold _ _ _ ?_
    rcases hget : recordGet rbs (sourcePathFromRelationshipsPath entry.1) with
      _ | tm'
    · intro rid ir hir
      simp [recordGet_nil] at hir
    · exact hinv _ tm' hget
  · exact hinv owner tm hold

theorem invRBS_foldl (l : List (String × List Relationship)) :
    ∀ acc, InvRBS acc → InvRBS (l.foldl addRelsPart acc) := by
  induction l with
  | nil => intro acc h; exact h
  | cons e es ih =>
    intro acc h
    rw [List.foldl_cons]
    exact ih _ (invRBS_addRelsPart acc e h)

/-- Claim C3: every relationship reachable in the index built by
`buildRelationshipsBySource` has `resolvedTarget` equal to the raw
`target` when `targetMode` equals `"External"` case-insensitively, and a
normalized in-package path (no `.`/`..` segments, no leading slash)
otherwise. -/
theorem buildRelationshipsBySource_resolvedTarget
    (relationships : List (String × List Relationship))
    (owner rid : String) (tm : List (String × IndexedRelationship))
    (ir : IndexedRelationship)
    (h1 : recordGet (buildRelationshipsBySource relationships) owner = some tm)
    (h2 : recordGet tm rid = some ir) :
    (ir.targetMode.map jsToLower = some "external" →
      ir.resolvedTarget = ir.target) ∧
    (ir.targetMode.map jsToLower ≠ some "external" →
      isNormalizedPath ir.resolvedTarget) := by
  have hbase : InvRBS ([] : RelationshipsBySource) := by
    intro owner tm htm
    simp [recordGet_nil] at htm
  exact invRBS_foldl relationships [] hbase owner tm h1 rid ir h2

/-- Witness for claim C3: a concrete internal relationship, reached
through the index built from one `.rels` part, has a normalized
resolved target. -/
theorem buildRelationshipsBySource_resolvedTarget_witness :
    isNormalizedPath "word/media/image.png" :=
  (buildRelationshipsBySource_resolvedTarget
    [("word/_rels/document.xml.rels",
      [{ id := "rId1", target := "media/image.png", type := none,
         targetMode := none, source := "word/_rels/document.xml.rels" }])]
    "word/document.xml" "rId1"
    [("rId1",
      { id := "rId1", target := "media/image.png", type := none,
        targetMode := none, source := "word/_rels/document.xml.rels",
        resolvedTarget := "word/media/image.png" })]
    { id := "rId1", target := "media/image.png", type := none,
      targetMode := none, source := "word/_rels/document.xml.rels",
      resolvedTarget := "word/media/image.png" }
    (by decide) (by decide)).2 (by decide)

/-! ## Claim C4: owner-path derivation from a .rels part path -/

theorem lastIndexOf?_append_singleton {α : Type} [DecidableEq α]
    (l : List α) (x a : α) (h : x ≠ a) :
    lastIndexOf? (l ++ [x]) a = lastIndexOf? l a := by
  induction l with
  | nil =>
    simp only [List.nil_append, lastIndexOf?]
    rw [if_neg h]
  | cons y ys ih =>
    simp only [List.cons_append, lastIndexOf?, List.append_eq]
    rw [ih]

theorem lastIndexOf?_of_mem {α : Type} [DecidableEq α] (l : List α) (a : α)
    (h : a ∈ l) : ∃ i, lastIndexOf? l a = some i := by
  induction l with
  | nil => cases h
  | cons y ys ih =>
    rcases List.mem_cons.mp h with rfl | hmem
    · rcases hrec : lastIndexOf? ys a with _ | i
      · exact ⟨0, by simp [lastIndexOf?, hrec]⟩
      · exact ⟨i + 1, by simp only [lastIndexOf?, hrec]⟩
    · rcases ih hmem with ⟨i, hi⟩
      exact ⟨i + 1, by simp only [lastIndexOf?, hi]⟩

/-- Stripping the 5-character `.rels` suffix from a filename, as the
claim describes the base-document-filename derivation. -/
def stripRelsSuffix (filename : String) : String :=
  String.mk (filename.toList.take (filename.toList.length - 5))

/-- Joining an owner folder and base filename, empty components
omitted, as the spec describes owner-path assembly. -/
def joinOwner (folder base : String) : String :=
  if folder = "" then base else folder ++ "/" ++ base

/-- Claim C4: for a `.rels` part path (trailing filename ends in
`.rels`, some `_rels` segment precedes it, and the degenerate filename
`.rels.rels` at package root aside), the owner path is assembled from
the folder before the last `_rels` segment and the filename with the
`.rels` suffix stripped; and the two concrete derivations from the
claim hold. -/
theorem sourcePathFromRelationshipsPath_spec :
    (∀ p : String,
      jsEndsWith ((jsSplit p).getLast?.getD "") ".rels" = true →
      "_rels" ∈ (jsSplit p).dropLast →
      (jsSplit p).getLast?.getD "" ≠ ".rels.rels" →
      ∃ i, lastIndexOf? ((jsSplit p).dropLast) "_rels" = some i ∧
        sourcePathFromRelationshipsPath p =
          joinOwner (jsJoin (((jsSplit p).dropLast).take i))
            (stripRelsSuffix ((jsSplit p).getLast?.getD ""))) ∧
    sourcePathFromRelationshipsPath "_rels/.rels" = "" ∧
    sourcePathFromRelationshipsPath "word/_rels/document.xml.rels" =
      "word/document.xml" := by
  refine ⟨?_, by decide, by decide⟩
  intro p h1 h2 h3
  obtain ⟨i, hI⟩ := lastIndexOf?_of_mem ((jsSplit p).dropLast) "_rels" h2
  have hne : jsSplit p ≠ [] := by
    unfold jsSplit
    intro h
    exact splitChars_ne_nil p.toList (List.map_eq_nil_iff.mp h)
  have e1 : (jsSplit p).dropLast ++ [(jsSplit p).getLast?.getD ""] =
      jsSplit p := by
    rw [List.getLast?_eq_getLast_of_ne_nil hne, Option.getD_some]
    exact List.dropLast_append_getLast hne
  have hfn : (jsSplit p).getLast?.getD "" ≠ "_rels" := by
    intro heq
    rw [heq] at h1
    exact absurd h1 (by decide)
  have hLIfull : lastIndexOf? (jsSplit p) "_rels" = some i := by
    conv_lhs => rw [← e1]
    rw [lastIndexOf?_append_singleton _ _ _ hfn]
    exact hI
  have hbase : stripRelsSuffix ((jsSplit p).getLast?.getD "") ≠ ".rels" := by
    intro hsr
    have hsuf : (".rels" : String).toList <:+
        ((jsSplit p).getLast?.getD "").toList := by
      have h1' := h1
      unfold jsEndsWith at h1'
      exact List.isSuffixOf_iff_suffix.mp h1'
    obtain ⟨pre, hpre⟩ := hsuf
    have hlen : ((jsSplit p).getLast?.getD "").toList.length =
        pre.length + 5 := by
      rw [← hpre, List.length_append]
      rfl
    have htake : ((jsSplit p).getLast?.getD "").toList.take
        (((jsSplit p).getLast?.getD "").toList.length - 5) = pre := by
      rw [hlen, Nat.add_sub_cancel, ← hpre]
      exact List.take_left pre _
    unfold stripRelsSuffix at hsr
    rw [htake] at hsr
    have hpreL : pre = (".rels" : String).toList := by
      have := congrArg String.toList hsr
      rw [toList_mk] at this
      exact this
    apply h3
    rw [← mk_toList ((jsSplit p).getLast?.getD ""), ← hpre, hpreL]
    rfl
  refine ⟨i, hI, ?_⟩
  simp only [sourcePathFromRelationshipsPath]
  rw [hLIfull, if_pos h1]
  rw [if_neg (fun hand => hbase hand.1)]
  rfl

/-- Witness for claim C4's universal part at the standard
document-relationships path. -/
theorem sourcePathFromRelationshipsPath_spec_witness :
    ∃ i,
      lastIndexOf? ((jsSplit "word/_rels/document.xml.rels").dropLast)
        "_rels" = some i ∧
      sourcePathFromRelationshipsPath "word/_rels/document.xml.rels" =
        joinOwner
          (jsJoin (((jsSplit "word/_rels/document.xml.rels").dropLast).take i))
          (stripRelsSuffix
            ((jsSplit "word/_rels/document.xml.rels").getLast?.getD "")) :=
  sourcePathFromRelationshipsPath_spec.1 "word/_rels/document.xml.rels"
    (by decide) (by decide) (by decide)

/-! ## Embedding of `src/core/reference-map.ts` -/

/-- A reference source triple with its optional display label. -/
structure ReferenceSource where
  sourcePath : String
  sourceAttribute : String
  sourceValue : String
  label : Option String
  deriving DecidableEq, Repr

/-- A reference target triple. -/
structure ReferenceTarget where
  targetPath : String
  targetAttribute : String
  targetValue : String
  deriving DecidableEq, Repr

/-- A reference link connects a source and a target. -/
structure ReferenceLink extends ReferenceSource, ReferenceTarget
  deriving DecidableEq, Repr

/-- `createReferenceKey`: the composite key
`path::attribute(lowercased)::value`. -/
def createReferenceKey (path attr value : String) : String :=
  path ++ "::" ++ jsToLower attr ++ "::" ++ value

/-- The state held by `createReferenceMap`'s closure: the forward and
reverse `Map<string, …[]>` indexes, modelled with the same
insertion-ordered association lists as records (`Map.get`/`Map.set`
have the same lookup/replace-or-append behaviour). -/
structure ReferenceMapState where
  forwardMap : List (String × List ReferenceTarget)
  reverseMap : List (String × List ReferenceSource)
  deriving DecidableEq, Repr

/-- The freshly created, empty reference map. -/
def createReferenceMap : ReferenceMapState := ⟨[], []⟩

/-- `addReference`: append the link's target to the forward index under
the source key and its source to the reverse index under the target
key. -/
def addReference (m : ReferenceMapState) (link : ReferenceLink) :
    ReferenceMapState :=
  let sourceKey :=
    createReferenceKey link.sourcePath link.sourceAttribute link.sourceValue
  let targetKey :=
    createReferenceKey link.targetPath link.targetAttribute link.targetValue
  let existingTargets := (recordGet m.forwardMap sourceKey).getD []
  let existingSources := (recordGet m.reverseMap targetKey).getD []
  { forwardMap :=
      recordSet m.forwardMap sourceKey
        (existingTargets ++ [link.toReferenceTarget])
    reverseMap :=
      recordSet m.reverseMap targetKey
        (existingSources ++ [link.toReferenceSource]) }

/-- `getReferencesFrom`: all targets registered under the composite key,
or the empty list. -/
def getReferencesFrom (m : ReferenceMapState) (path attr value : String) :
    List ReferenceTarget :=
  (recordGet m.forwardMap (createReferenceKey path attr value)).getD []

/-- `getReferencesTo`: all sources registered under the composite key,
or the empty list. -/
def getReferencesTo (m : ReferenceMapState) (path attr value : String) :
    List ReferenceSource :=
  (recordGet m.reverseMap (createReferenceKey path attr value)).getD []

/-- `clear`: drop both indexes. -/
def clearReferences (_ : ReferenceMapState) : ReferenceMapState :=
  createReferenceMap

/-! ## String-append cancellation, for key case-sensitivity -/

theorem string_toList_inj {a b : String} (h : a.toList = b.toList) : a = b := by
  rw [← mk_toList a, ← mk_toList b, h]

theorem createReferenceKey_path_inj {p p' a v : String}
    (h : createReferenceKey p a v = createReferenceKey p' a v) : p = p' := by
  unfold createReferenceKey at h
  have h' := congrArg String.toList h
  simp only [toList_append, List.append_assoc] at h'
  exact string_toList_inj (List.append_inj_left' h' rfl)

theorem createReferenceKey_value_inj {p a v v' : String}
    (h : createReferenceKey p a v = createReferenceKey p a v') : v = v' := by
  unfold createReferenceKey at h
  have h' := congrArg String.toList h
  simp only [toList_append] at h'
  exact string_toList_inj (List.append_inj_right h' rfl)

/-! ## Claim C5: reference-map symmetry -/

/-- Claim C5: after `addReference(L)`, the forward lookup at `L`'s
source triple ends with `L`'s target triple and the reverse lookup at
`L`'s target triple ends with `L`'s source triple (append, never
replace); lookups depend on the attribute name only up to case, while
path and value are matched case-sensitively. -/
theorem referenceMap_symmetry :
    (∀ (m : ReferenceMapState) (link : ReferenceLink),
      getReferencesFrom (addReference m link) link.sourcePath
          link.sourceAttribute link.sourceValue =
        getReferencesFrom m link.sourcePath link.sourceAttribute
          link.sourceValue ++ [link.toReferenceTarget] ∧
      getReferencesTo (addReference m link) link.targetPath
          link.targetAttribute link.targetValue =
        getReferencesTo m link.targetPath link.targetAttribute
          link.targetValue ++ [link.toReferenceSource]) ∧
    (∀ (m : ReferenceMapState) (link : ReferenceLink),
      link.toReferenceTarget ∈ getReferencesFrom (addReference m link)
        link.sourcePath link.sourceAttribute link.sourceValue ∧
      link.toReferenceSource ∈ getReferencesTo (addReference m link)
        link.targetPath link.targetAttribute link.targetValue) ∧
    (∀ (m : ReferenceMapState) (p a a' v : String),
      jsToLower a = jsToLower a' →
      getReferencesFrom m p a v = getReferencesFrom m p a' v ∧
      getReferencesTo m p a v = getReferencesTo m p a' v) ∧
    (∀ (link : ReferenceLink) (p' : String), p' ≠ link.sourcePath →
      getReferencesFrom (addReference createReferenceMap link) p'
        link.sourceAttribute link.sourceValue = []) ∧
    (∀ (link : ReferenceLink) (v' : String), v' ≠ link.sourceValue →
      getReferencesFrom (addReference createReferenceMap link)
        link.sourcePath link.sourceAttribute v' = []) := by
  have hfrom : ∀ (m : ReferenceMapState) (link : ReferenceLink),
      getReferencesFrom (addReference m link) link.sourcePath
          link.sourceAttribute link.sourceValue =
        getReferencesFrom m link.sourcePath link.sourceAttribute
          link.sourceValue ++ [link.toReferenceTarget] := by
    intro m link
    unfold getReferencesFrom addReference
    rw [recordGet_recordSet_self]
    rfl
  have hto : ∀ (m : ReferenceMapState) (link : ReferenceLink),
      getReferencesTo (addReference m link) link.targetPath
          link.targetAttribute link.targetValue =
        getReferencesTo m link.targetPath link.targetAttribute
          link.targetValue ++ [link.toReferenceSource] := by
    intro m link
    unfold getReferencesTo addReference
    rw [recordGet_recordSet_self]
    rfl
  refine ⟨fun m link => ⟨hfrom m link, hto m link⟩, ?_, ?_, ?_, ?_⟩
  · intro m link
    constructor
    · rw [hfrom m link]
      exact List.mem_append_right _ (List.mem_singleton.mpr rfl)
    · rw [hto m link]
      exact List.mem_append_right _ (List.mem_singleton.mpr rfl)
  · intro m p a a' v h
    have hk : createReferenceKey p a v = createReferenceKey p a' v := by
      unfold createReferenceKey
      rw [h]
    constructor
    · unfold getReferencesFrom
      rw [hk]
    · unfold getReferencesTo
      rw [hk]
  · intro link p' hp
    unfold getReferencesFrom addReference createReferenceMap
    rw [recordGet_recordSet_ne]
    · rfl
    · intro hk
      exact hp (createReferenceKey_path_inj hk)
  · intro link v' hv
    unfold getReferencesFrom addReference createReferenceMap
    rw [recordGet_recordSet_ne]
    · rfl
    · intro hk
      exact hv (createReferenceKey_value_inj hk)

/-- Witness for claim C5's case-sensitivity clauses: lookups with
`"W:ID"` and `"w:id"` agree on a concrete map, while a differently
cased path finds nothing. -/
theorem referenceMap_symmetry_witness :
    (getReferencesFrom
        (addReference createReferenceMap
          { sourcePath := "word/document.xml", sourceAttribute := "W:ID",
            sourceValue := "1", label := none,
            targetPath := "word/comments.xml", targetAttribute := "w:id",
            targetValue := "1" })
        "word/document.xml" "W:ID" "1" =
      getReferencesFrom
        (addReference createReferenceMap
          { sourcePath := "word/document.xml", sourceAttribute := "W:ID",
            sourceValue := "1", label := none,
            targetPath := "word/comments.xml", targetAttribute := "w:id",
            targetValue := "1" })
        "word/document.xml" "w:id" "1") ∧
    getReferencesFrom
        (addReference createReferenceMap
          { sourcePath := "word/document.xml", sourceAttribute := "W:ID",
            sourceValue := "1", label := none,
            targetPath := "word/comments.xml", targetAttribute := "w:id",
            targetValue := "1" })
        "Word/document.xml" "W:ID" "1" = [] := by
  constructor
  · exact (referenceMap_symmetry.2.2.1 _ "word/document.xml" "W:ID" "w:id" "1"
      (by decide)).1
  · exact referenceMap_symmetry.2.2.2.1
      { sourcePath := "word/document.xml", sourceAttribute := "W:ID",
        sourceValue := "1", label := none,
        targetPath := "word/comments.xml", targetAttribute := "w:id",
        targetValue := "1" }
      "Word/document.xml" (by decide)

/-! ## Claim C9: reference-map lookups never fail -/

/-- Claim C9: lookups are total — a key with no registered links yields
the empty list on both directions (in particular on the fresh map), and
after `clear()` every lookup returns the empty list. -/
theorem referenceMap_lookup_absence :
    (∀ p a v : String,
      getReferencesFrom createReferenceMap p a v = [] ∧
      getReferencesTo createReferenceMap p a v = []) ∧
    (∀ (m : ReferenceMapState) (p a v : String),
      getReferencesFrom (clearReferences m) p a v = [] ∧
      getReferencesTo (clearReferences m) p a v = []) ∧
    (∀ (m : ReferenceMapState) (p a v : String),
      recordGet m.forwardMap (createReferenceKey p a v) = none →
      getReferencesFrom m p a v = []) ∧
    (∀ (m : ReferenceMapState) (p a v : String),
      recordGet m.reverseMap (createReferenceKey p a v) = none →
      getReferencesTo m p a v = []) := by
  refine ⟨fun p a v => ⟨rfl, rfl⟩, fun m p a v => ⟨rfl, rfl⟩, ?_, ?_⟩
  · intro m p a v h
    unfold getReferencesFrom
    rw [h]
    rfl
  · intro m p a v h
    unfold getReferencesTo
    rw [h]
    rfl

/-- Witness for claim C9's unregistered-key clauses on a concrete
non-empty map. -/
theorem referenceMap_lookup_absence_witness :
    getReferencesFrom
      (addReference createReferenceMap
        { sourcePath := "word/document.xml", sourceAttribute := "w:id",
          sourceValue := "1", label := none,
          targetPath := "word/comments.xml", targetAttribute := "w:id",
          targetValue := "1" })
      "word/document.xml" "w:id" "999" = [] :=
  referenceMap_lookup_absence.2.2.1
    (addReference createReferenceMap
      { sourcePath := "word/document.xml", sourceAttribute := "w:id",
        sourceValue := "1", label := none,
        targetPath := "word/comments.xml", targetAttribute := "w:id",
        targetValue := "1" })
    "word/document.xml" "w:id" "999" (by decide)

/-! ## Embedding of `src/core/xml-parser.ts` and `parseRelationships`

The DOM produced by the platform `DOMParser` is abstracted to exactly
the view `parseRelationships` consumes: the list of `<Relationship>`
elements (`getElementsByTagName('Relationship')` in document order),
each carrying its attribute list.  `getAttribute` is the exact-name
first-match lookup returning `none` for DOM `null`. -/

/-- One DOM element as its attribute association list. -/
abbrev XmlElement : Type := List (String × String)

/-- The `<Relationship>` elements of a parsed document. -/
abbrev XmlDoc : Type := List XmlElement

/-- DOM `element.getAttribute(name)` (`none` models `null`). -/
def getAttribute (e : XmlElement) (name : String) : Option String :=
  (e.find? (fun p => decide (p.1 = name))).map (·.2)

/-- `\r\n` → `\n` replacement from `normalizeXml`. -/
def replaceCRLF : List Char → List Char
  | [] => []
  | '\r' :: '\n' :: rest => '\n' :: replaceCRLF rest
  | c :: rest => c :: replaceCRLF rest

/-- JavaScript `String.prototype.trim()`. -/
def jsTrim (cs : List Char) : List Char :=
  ((cs.dropWhile Char.isWhitespace).reverse.dropWhile Char.isWhitespace).reverse

/-- `normalizeXml` from `xml-parser.ts`. -/
def normalizeXml (xml : String) : String :=
  String.mk (jsTrim (replaceCRLF xml.toList))

/-- `ParsedXml` from `xml-parser.ts`. -/
structure ParsedXml where
  path : Option String
  text : String
  document : XmlDoc
  deriving DecidableEq, Repr

/-- `parseXml` from `xml-parser.ts`, abstracted over the platform
`DOMParser` as `domParse` (`none` models a document containing a
`parsererror` element).  Both in-repo call sites use the default
whitespace normalization, so the text is always normalized.  A parse
failure is a thrown `Error` naming the part, modelled as `Except.error`
with the part path. -/
def parseXml (domParse : String → Option XmlDoc) (xml : String)
    (path : Option String) : Except (Option String) ParsedXml :=
  let normalized := normalizeXml xml
  match domParse normalized with
  | some document => .ok { path := path, text := normalized, document }
  | none => .error path

/-- `parseRelationships` from `relationships.ts` (the parsed-document
branch; the string branch runs `parseXml` first, as the loader does).
Elements lacking a non-empty `Id` or `Target` are skipped; each
attribute lookup tries the exact-case name first and falls back via
`??` to the source's second spelling — all-lowercase `id`, `target`,
`type`, but lower-camelCase `targetMode` for `TargetMode`. -/
def parseRelationshipsStep (source : String) (relationships : RelationshipMap)
    (relationship : XmlElement) : RelationshipMap :=
  let id := jsOr (getAttribute relationship "Id")
    (getAttribute relationship "id")
  let target := jsOr (getAttribute relationship "Target")
    (getAttribute relationship "target")
  if id.getD "" = "" ∨ target.getD "" = "" then relationships
  else
    recordSet relationships (id.getD "")
      { id := id.getD "", target := target.getD "",
        type := jsOr (getAttribute relationship "Type")
          (getAttribute relationship "type"),
        targetMode := jsOr (getAttribute relationship "TargetMode")
          (getAttribute relationship "targetMode"),
        source := source }

/-- The loop of `parseRelationships` over the `<Relationship>`
elements. -/
def parseRelationships (doc : XmlDoc) (source : String) : RelationshipMap :=
  doc.foldl (parseRelationshipsStep source) []

/-! ## Claim C8: parseRelationships reads and skips elements -/

/-- The `Id` attribute as read by `parseRelationships`: exact case
first, lowercase fallback. -/
def relAttrId (e : XmlElement) : Option String :=
  jsOr (getAttribute e "Id") (getAttribute e "id")

/-- The `Target` attribute as read by `parseRelationships`. -/
def relAttrTarget (e : XmlElement) : Option String :=
  jsOr (getAttribute e "Target") (getAttribute e "target")

/-- Counterexample to claim C8 as stated: the all-lowercase spelling is
NOT accepted for every attribute.  `targetmode` is the all-lowercase
form of `TargetMode`, yet an element carrying it has its target mode
dropped (`targetMode = none`): the code's fallback lookup is the
lower-camelCase `targetMode`, and DOM `getAttribute` is
case-sensitive. -/
theorem parseRelationships_lowercase_targetmode_counterexample :
    jsToLower "TargetMode" = "targetmode" ∧
    recordGet
        (parseRelationships
          [[("id", "rId1"), ("target", "word/document.xml"),
            ("targetmode", "External")]] "_rels/.rels")
        "rId1" =
      some { id := "rId1", target := "word/document.xml", type := none,
             targetMode := none, source := "_rels/.rels" } := by
  decide

/-- Claim C8, amended: an element whose `Id` or `Target` is missing or
empty is skipped silently — parsing the document with that element
removed gives the same map, wherever the element sits — and a
well-formed element contributes a relationship exposing its `Id`,
`Target`, optional `Type`, and optional `TargetMode`; each attribute
read accepts the exact-case name first with a fallback to the code's
second spelling: all-lowercase for `Id`, `Target` and `Type`, but
lower-camelCase `targetMode` (not all-lowercase `targetmode`) for
`TargetMode`; the parse itself is total and never fails. -/
theorem parseRelationships_spec :
    (∀ (pre post : XmlDoc) (e : XmlElement) (source : String),
      (relAttrId e).getD "" = "" ∨ (relAttrTarget e).getD "" = "" →
      parseRelationships (pre ++ e :: post) source =
        parseRelationships (pre ++ post) source) ∧
    (∀ (doc : XmlDoc) (e : XmlElement) (source : String),
      (relAttrId e).getD "" ≠ "" → (relAttrTarget e).getD "" ≠ "" →
      recordGet (parseRelationships (doc ++ [e]) source)
          ((relAttrId e).getD "") =
        some { id := (relAttrId e).getD "",
               target := (relAttrTarget e).getD "",
               type := jsOr (getAttribute e "Type") (getAttribute e "type"),
               targetMode := jsOr (getAttribute e "TargetMode")
                 (getAttribute e "targetMode"),
               source := source }) := by
  constructor
  · intro pre post e source hskip
    unfold parseRelationships
    rw [List.foldl_append, List.foldl_append, List.foldl_cons]
    have hstep : ∀ acc : RelationshipMap,
        parseRelationshipsStep source acc e = acc := by
      intro acc
      unfold parseRelationshipsStep
      exact if_pos hskip
    rw [hstep]
  · intro doc e source hid htgt
    unfold parseRelationships
    rw [List.foldl_append, List.foldl_cons, List.foldl_nil]
    have hstep :
        parseRelationshipsStep source
            (List.foldl (parseRelationshipsStep source) [] doc) e =
          recordSet (List.foldl (parseRelationshipsStep source) [] doc)
            ((relAttrId e).getD "")
            { id := (relAttrId e).getD "",
              target := (relAttrTarget e).getD "",
              type := jsOr (getAttribute e "Type") (getAttribute e "type"),
              targetMode := jsOr (getAttribute e "TargetMode")
                (getAttribute e "targetMode"),
              source := source } := by
      unfold parseRelationshipsStep
      exact if_neg (not_or.mpr ⟨hid, htgt⟩)
    rw [hstep, recordGet_recordSet_self]

/-- Witness for claim C8: a concrete element missing `Id` is dropped,
and a concrete element with lowercase `id`/`target` and exact-case
`TargetMode` is read. -/
theorem parseRelationships_spec_witness :
    (parseRelationships [[("Target", "media/image1.png")]] "word/_rels/document.xml.rels" =
      parseRelationships [] "word/_rels/document.xml.rels") ∧
    recordGet
        (parseRelationships
          [[("id", "rId1"), ("target", "word/document.xml"),
            ("TargetMode", "External")]] "_rels/.rels")
        "rId1" =
      some { id := "rId1", target := "word/document.xml", type := none,
             targetMode := some "External", source := "_rels/.rels" } := by
  constructor
  · exact parseRelationships_spec.1 [] [] [("Target", "media/image1.png")]
      "word/_rels/document.xml.rels" (by decide)
  · have h := parseRelationships_spec.2 []
      [("id", "rId1"), ("target", "word/document.xml"),
        ("TargetMode", "External")] "_rels/.rels" (by decide) (by decide)
    simpa using h

/-! ## Embedding of `src/core/jszip-lite.ts`

Bytes are natural numbers below 256 in a list; multi-byte reads are
little-endian, and an out-of-range `DataView` read (which throws
`RangeError` in JavaScript) is an explicit error.  The raw-DEFLATE
primitive (`DecompressionStream` / `node:zlib`) and `TextDecoder` are
platform capabilities, passed in as `inflateRaw` and `decodeBytes`.
The `Date` built by `parseDosDateTime` is a platform value; entries
keep the raw packed DOS date and time words instead. -/

/-- The spec's `ContainerFormatError` taxonomy; the source throws
`Error`s with distinct messages, mapped one-to-one onto constructors.
`rangeReadError` models the `RangeError` thrown by an out-of-bounds
`DataView` read. -/
inductive ContainerFormatError where
  | missingDirectory
  | corruptDirectoryEntry
  | missingLocalHeader
  | unsupportedCompression (method : ℕ)
  | rangeReadError
  deriving DecidableEq, Repr

/-- `ParsedEntry` from `jszip-lite.ts` (`date` kept as the raw DOS
words). -/
structure ParsedEntry where
  name : String
  dir : Bool
  compressedSize : ℕ
  uncompressedSize : ℕ
  compressionMethod : ℕ
  dosDate : ℕ
  dosTime : ℕ
  data : List ℕ
  deriving DecidableEq, Repr

/-- The 4-byte end-of-central-directory signature test at offset `i`
(`data[i] === 0x50 && … && data[i+3] === 0x06`; an out-of-bounds index
reads `undefined` and fails the comparison). -/
def sigAtEOCD (data : List ℕ) (i : ℕ) : Bool :=
  data.get? i == some 0x50 && data.get? (i + 1) == some 0x4b &&
  data.get? (i + 2) == some 0x05 && data.get? (i + 3) == some 0x06

/-- `findEndOfCentralDirectory`: scan backward from `length - 22` down
to `max 0 (length - 0x10000)`; `none` models the JavaScript result
`-1`.  When the buffer is shorter than 22 bytes the JavaScript loop
starts at a negative index and never runs. -/
def findEndOfCentralDirectory (data : List ℕ) : Option ℕ :=
  if data.length < 22 then none
  else
    let minOffset := data.length - 0x10000
    ((List.range' minOffset (data.length - 22 - minOffset + 1)).reverse).find?
      (fun i => sigAtEOCD data i)

/-- Little-endian `DataView.getUint16`; `none` models the thrown
`RangeError`. -/
def getU16 (data : List ℕ) (i : ℕ) : Option ℕ :=
  match data.get? i, data.get? (i + 1) with
  | some b0, some b1 => some (b0 + 256 * b1)
  | _, _ => none

/-- Little-endian `DataView.getUint32`; `none` models the thrown
`RangeError`. -/
def getU32 (data : List ℕ) (i : ℕ) : Option ℕ :=
  match data.get? i, data.get? (i + 1), data.get? (i + 2),
      data.get? (i + 3) with
  | some b0, some b1, some b2, some b3 =>
    some (b0 + 256 * b1 + 65536 * b2 + 16777216 * b3)
  | _, _, _, _ => none

/-- `data.slice(start, stop)` on a byte array (clamping, never
throwing). -/
def sliceBytes (data : List ℕ) (start stop : ℕ) : List ℕ :=
  (data.take stop).drop start

/-- `decompress` from `jszip-lite.ts`: method 0 returns the slice
verbatim, method 8 raw-inflates through the platform primitive, any
other method is `UnsupportedCompression`. -/
def decompress (inflateRaw : List ℕ → List ℕ) (compressionMethod : ℕ)
    (compressedData : List ℕ) : Except ContainerFormatError (List ℕ) :=
  if compressionMethod = 0 then .ok compressedData
  else if compressionMethod = 8 then .ok (inflateRaw compressedData)
  else .error (.unsupportedCompression compressionMethod)

/-- The central-directory walk of `parseEntries`: `totalEntries`
iterations from `centralDirectoryOffset`, each validating the
central-record signature and the local-header signature, slicing and
decompressing the payload (directories skip decompression), and
accumulating entries in order. -/
def parseEntriesLoop (inflateRaw : List ℕ → List ℕ)
    (decodeBytes : List ℕ → String) (data : List ℕ) :
    ℕ → ℕ → List ParsedEntry → Except ContainerFormatError (List ParsedEntry)
  | 0, _, acc => .ok acc.reverse
  | n + 1, pointer, acc =>
    match getU32 data pointer with
    | none => .error .rangeReadError
    | some signature =>
      if signature = 0x02014b50 then
        match getU16 data (pointer + 10), getU16 data (pointer + 12),
            getU16 data (pointer + 14), getU32 data (pointer + 20),
            getU32 data (pointer + 24), getU16 data (pointer + 28),
            getU16 data (pointer + 30), getU16 data (pointer + 32),
            getU32 data (pointer + 42) with
        | some compressionMethod, some dosTime, some dosDate,
            some compressedSize, some uncompressedSize, some fileNameLength,
            some extraLength, some commentLength, some localHeaderOffset =>
          let nameBytes :=
            sliceBytes data (pointer + 46) (pointer + 46 + fileNameLength)
          let name := decodeBytes nameBytes
          let dir := jsEndsWith name "/"
          match getU32 data localHeaderOffset with
          | none => .error .rangeReadError
          | some localFileHeaderSignature =>
            if localFileHeaderSignature = 0x04034b50 then
              match getU16 data (localHeaderOffset + 26),
                  getU16 data (localHeaderOffset + 28) with
              | some localNameLength, some localExtraLength =>
                let dataStart :=
                  localHeaderOffset + 30 + localNameLength + localExtraLength
                let compressedData :=
                  sliceBytes data dataStart (dataStart + compressedSize)
                match (if dir then Except.ok [] else
                    decompress inflateRaw compressionMethod compressedData)
                  with
                | .error e => .error e
                | .ok payload =>
                  parseEntriesLoop inflateRaw decodeBytes data n
                    (pointer + 46 + fileNameLength + extraLength +
                      commentLength)
                    ({ name := name, dir := dir,
                       compressedSize := compressedSize,
                       uncompressedSize := uncompressedSize,
                       compressionMethod := compressionMethod,
                       dosDate := dosDate, dosTime := dosTime,
                       data := payload } :: acc)
              | _, _ => .error .rangeReadError
            else .error .missingLocalHeader
        | _, _, _, _, _, _, _, _, _ => .error .rangeReadError
      else .error .corruptDirectoryEntry

/-- `parseEntries` from `jszip-lite.ts`: locate the EOCD record, read
the entry count and central-directory offset, and walk the directory. -/
def parseEntries (inflateRaw : List ℕ → List ℕ)
    (decodeBytes : List ℕ → String) (data : List ℕ) :
    Except ContainerFormatError (List ParsedEntry) :=
  match findEndOfCentralDirectory data with
  | none => .error .missingDirectory
  | some eocdOffset =>
    match getU16 data (eocdOffset + 10), getU32 data (eocdOffset + 16) with
    | some totalEntries, some centralDirectoryOffset =>
      parseEntriesLoop inflateRaw decodeBytes data totalEntries
        centralDirectoryOffset []
    | _, _ => .error .rangeReadError

/-- Byte-wise ASCII text decoding, a concrete `TextDecoder` stand-in
for witnesses (all fixture names and texts are ASCII). -/
def asciiDecode (bytes : List ℕ) : String :=
  String.mk (bytes.map Char.ofNat)

/-! ## Claim C6: a buffer without an EOCD signature fails with
MissingDirectory -/

/-- Claim C6: when no end-of-central-directory signature occurs
anywhere in the backward-scanned window (from `length - 22` down to
`length - 0x10000`), `parseEntries` fails with `MissingDirectory` — an
error, so no entries are exposed. -/
theorem parseEntries_missingDirectory (inflateRaw : List ℕ → List ℕ)
    (decodeBytes : List ℕ → String) (data : List ℕ)
    (hsig : ∀ i < data.length - 21,
      data.length - 0x10000 ≤ i → sigAtEOCD data i = false) :
    parseEntries inflateRaw decodeBytes data =
      .error .missingDirectory := by
  have hfind : findEndOfCentralDirectory data = none := by
    unfold findEndOfCentralDirectory
    by_cases hlen : data.length < 22
    · rw [if_pos hlen]
    · rw [if_neg hlen]
      apply List.find?_eq_none.mpr
      intro i hi
      rw [List.mem_reverse, List.mem_range'_1] at hi
      simp only [Bool.not_eq_true]
      exact hsig i (by omega) (by omega)
  unfold parseEntries
  rw [hfind]

/-- Witness for claim C6 on a concrete 30-byte buffer of zeros. -/
theorem parseEntries_missingDirectory_witness :
    parseEntries (fun d => d) asciiDecode (List.replicate 30 0) =
      .error .missingDirectory :=
  parseEntries_missingDirectory (fun d => d) asciiDecode
    (List.replicate 30 0) (by decide)

/-! ## Claim C7: decompression methods and unsupported-method failure

Two concrete one-entry archives: `zipFile99Bytes` declares compression
method 99 on a file entry named `f`; `zipDir99Bytes` declares method 99
on a directory entry named `d/`.  Both have a valid local header, a
valid central directory at the recorded offset, and an EOCD record at
the tail. -/

/-- A well-formed archive whose single file entry `f` declares
compression method 99. -/
def zipFile99Bytes : List ℕ :=
  [80, 75, 3, 4, 0, 0, 0, 0, 0, 0, 0, 0, 0, 0, 0, 0, 0, 0, 0, 0, 0, 0,
   0, 0, 0, 0, 1, 0, 0, 0, 102, 80, 75, 1, 2, 0, 0, 0, 0, 0, 0, 99, 0, 0,
   0, 0, 0, 0, 0, 0, 0, 0, 0, 0, 0, 0, 0, 0, 0, 1, 0, 0, 0, 0, 0, 0, 0,
   0, 0, 0, 0, 0, 0, 0, 0, 0, 0, 102, 80, 75, 5, 6, 0, 0, 0, 0, 0, 0, 1,
   0, 0, 0, 0, 0, 31, 0, 0, 0, 0, 0]

/-- A well-formed archive whose single directory entry `d/` declares
compression method 99. -/
def zipDir99Bytes : List ℕ :=
  [80, 75, 3, 4, 0, 0, 0, 0, 0, 0, 0, 0, 0, 0, 0, 0, 0, 0, 0, 0, 0, 0,
   0, 0, 0, 0, 2, 0, 0, 0, 100, 47, 80, 75, 1, 2, 0, 0, 0, 0, 0, 0, 99,
   0, 0, 0, 0, 0, 0, 0, 0, 0, 0, 0, 0, 0, 0, 0, 0, 0, 2, 0, 0, 0, 0, 0,
   0, 0, 0, 0, 0, 0, 0, 0, 0, 0, 0, 0, 100, 47, 80, 75, 5, 6, 0, 0, 0, 0,
   0, 0, 1, 0, 0, 0, 0, 0, 32, 0, 0, 0, 0, 0]

/-- Counterexample to claim C7 as stated: a DIRECTORY entry declaring
compression method 99 does not fail the load — `parseEntries` skips
decompression for names ending in `/` (`dir ? new Uint8Array(0) :
await decompress(…)`), so the archive loads and exposes the entry. -/
theorem parseEntries_dir99_counterexample :
    parseEntries (fun d => d) asciiDecode zipDir99Bytes =
      .ok [{ name := "d/", dir := true, compressedSize := 0,
             uncompressedSize := 0, compressionMethod := 99,
             dosDate := 0, dosTime := 0, data := [] }] := by
  decide

/-- Claim C7, amended: `decompress` returns the slice verbatim for
method 0 and raw-inflates for method 8; any other method yields
`UnsupportedCompression(method)`; a NON-DIRECTORY entry declaring
method 99 fails the whole load with `UnsupportedCompression(99)`
(whatever the platform inflate does), so no entries from that archive
are exposed; directory entries skip decompression entirely and their
declared method is never checked. -/
theorem decompress_spec :
    (∀ (inflateRaw : List ℕ → List ℕ) (d : List ℕ),
      decompress inflateRaw 0 d = .ok d) ∧
    (∀ (inflateRaw : List ℕ → List ℕ) (d : List ℕ),
      decompress inflateRaw 8 d = .ok (inflateRaw d)) ∧
    (∀ (inflateRaw : List ℕ → List ℕ) (m : ℕ) (d : List ℕ),
      m ≠ 0 → m ≠ 8 →
      decompress inflateRaw m d = .error (.unsupportedCompression m)) ∧
    (∀ inflateRaw : List ℕ → List ℕ,
      parseEntries inflateRaw asciiDecode zipFile99Bytes =
        .error (.unsupportedCompression 99)) := by
  refine ⟨fun inflateRaw d => by unfold decompress; rw [if_pos rfl],
    fun inflateRaw d => by
      unfold decompress
      rw [if_neg (by decide), if_pos rfl],
    fun inflateRaw m d h0 h8 => by
      unfold decompress
      rw [if_neg h0, if_neg h8],
    fun inflateRaw => ?_⟩
  rfl

/-- Witness for the amended claim C7's unsupported-method clause at the
concrete method 99. -/
theorem decompress_spec_witness :
    decompress (fun d => d) 99 [1, 2, 3] =
      .error (.unsupportedCompression 99) :=
  decompress_spec.2.2.1 (fun d => d) 99 [1, 2, 3] (by decide) (by decide)

/-! ## Embedding of `JSZip.loadAsync` and `src/core/zip-loader.ts` -/

/-- `JSZipObject` (comment field elided; `date` kept as raw DOS
words). -/
structure JSZipObject where
  name : String
  dir : Bool
  data : List ℕ
  dosDate : ℕ
  dosTime : ℕ
  deriving DecidableEq, Repr

/-- The `JSZipObject` built from a parsed entry in `loadAsync`. -/
def mkZipObject (entry : ParsedEntry) : JSZipObject :=
  { name := entry.name, dir := entry.dir, data := entry.data,
    dosDate := entry.dosDate, dosTime := entry.dosTime }

/-- `loadAsync`'s `files` record: `files[entry.name] = new
JSZipObject(…)` over the entries in order. -/
def buildZipRecord (entries : List ParsedEntry) : List (String × JSZipObject) :=
  entries.foldl (fun files entry => recordSet files entry.name (mkZipObject entry)) []

/-- `PackageFileMetadata` from `zip-loader.ts` (`lastModified` kept as
the raw DOS words the `Date` is built from). -/
structure PackageFileMetadata where
  path : String
  name : String
  folder : String
  extension : String
  isXml : Bool
  lastModifiedDosDate : ℕ
  lastModifiedDosTime : ℕ
  size : ℕ
  deriving DecidableEq, Repr

/-- `PackageFile` from `zip-loader.ts`. -/
structure PackageFile where
  metadata : PackageFileMetadata
  arrayBuffer : List ℕ
  text : Option String
  deriving DecidableEq, Repr

/-- `PackageModel` from `zip-loader.ts`. -/
structure PackageModel where
  files : List PackageFile
  byPath : List (String × PackageFile)
  xmlDocuments : List (String × ParsedXml)
  relationships : List (String × RelationshipMap)
  deriving DecidableEq, Repr

/-- The errors `loadDocxPackage` can propagate: a container-format
failure from the ZIP layer, or a thrown XML parse error naming the
part. -/
inductive LoadError where
  | container (e : ContainerFormatError)
  | xmlParse (path : Option String)
  deriving DecidableEq, Repr

/-- `getExtension` from `zip-loader.ts`. -/
def getExtension (path : String) : String :=
  match lastIndexOf? path.toList '.' with
  | some index => jsToLower (String.mk (path.toList.drop index))
  | none => ""

/-- `getFolder` from `zip-loader.ts`. -/
def getFolder (path : String) : String :=
  match lastIndexOf? path.toList '/' with
  | some lastSlash => String.mk (path.toList.take lastSlash)
  | none => ""

/-- Membership in the `xmlExtensions` set. -/
def isXmlExtension (extension : String) : Bool :=
  extension == ".xml" || extension == ".rels"

/-- The `PackageFile` built for one non-directory entry of the loop in
`loadDocxPackage` (`text` is the raw decoded bytes for XML parts). -/
def mkPackageFile (decodeBytes : List ℕ → String) (entry : JSZipObject) :
    PackageFile :=
  let path := entry.name
  let extension := getExtension path
  let isXml := isXmlExtension extension
  let text := if isXml then some (decodeBytes entry.data) else none
  { metadata :=
      { path := path, name := (jsSplit path).getLast?.getD path,
        folder := getFolder path, extension := extension, isXml := isXml,
        lastModifiedDosDate := entry.dosDate,
        lastModifiedDosTime := entry.dosTime,
        size := entry.data.length },
    arrayBuffer := entry.data, text := text }

/-- The entry loop of `loadDocxPackage`: skip directories, build each
file record, decode and parse XML parts (a parse failure propagates as
a thrown error), and collect parsed documents and `.rels` relationship
maps keyed by path. -/
def processEntries (decodeBytes : List ℕ → String)
    (domParse : String → Option XmlDoc) :
    List JSZipObject →
      Except LoadError
        (List PackageFile × List (String × ParsedXml) ×
          List (String × RelationshipMap))
  | [] => .ok ([], [], [])
  | entry :: rest =>
    if entry.dir then processEntries decodeBytes domParse rest
    else
      let path := entry.name
      let file := mkPackageFile decodeBytes entry
      if file.metadata.isXml then
        match parseXml domParse (decodeBytes entry.data) (some path) with
        | .error p => .error (.xmlParse p)
        | .ok parsed =>
          match processEntries decodeBytes domParse rest with
          | .error e => .error e
          | .ok (files, xmlDocuments, relationships) =>
            .ok (file :: files, (path, parsed) :: xmlDocuments,
              if jsEndsWith (jsToLower path) ".rels" then
                (path, parseRelationships parsed.document path) ::
                  relationships
              else relationships)
      else
        match processEntries decodeBytes domParse rest with
        | .error e => .error e
        | .ok (files, xmlDocuments, relationships) =>
          .ok (file :: files, xmlDocuments, relationships)

/-- Lexicographic byte-order comparison on character lists: the
embedding of the `localeCompare`-based sort comparator (coinciding with
it on the ASCII part paths of OPC packages). -/
def charListLe : List Char → List Char → Bool
  | [], _ => true
  | _ :: _, [] => false
  | a :: as, b :: bs =>
    if a.toNat < b.toNat then true
    else if b.toNat < a.toNat then false
    else charListLe as bs

/-- The path comparator of `files.sort`. -/
def pathLe (a b : String) : Bool := charListLe a.toList b.toList

/-- Insertion step of the stable sort modelling `Array.prototype.sort`. -/
def insertLe {α : Type} (le : α → α → Bool) (x : α) : List α → List α
  | [] => [x]
  | y :: ys => if le x y then x :: y :: ys else y :: insertLe le x ys

/-- Insertion sort modelling `Array.prototype.sort` with a total
comparator. -/
def sortLe {α : Type} (le : α → α → Bool) (l : List α) : List α :=
  l.foldr (insertLe le) []

/-- The comparator applied to package files. -/
def fileLe (a b : PackageFile) : Bool := pathLe a.metadata.path b.metadata.path

/-- `Object.fromEntries(files.map(file => [file.metadata.path, file]))`:
assignment in iteration order, later keys overriding earlier ones. -/
def buildByPath (files : List PackageFile) : List (String × PackageFile) :=
  files.foldl (fun r file => recordSet r file.metadata.path file) []

/-- The tail of `loadDocxPackage` after `JSZip.loadAsync`: iterate the
record's values, sort the files by path, and assemble the model. -/
def loadPackageFromZip (decodeBytes : List ℕ → String)
    (domParse : String → Option XmlDoc) (zipFiles : List JSZipObject) :
    Except LoadError PackageModel :=
  match processEntries decodeBytes domParse zipFiles with
  | .error e => .error e
  | .ok (files0, xmlDocuments, relationships) =>
    let files := sortLe fileLe files0
    .ok { files := files, byPath := buildByPath files,
          xmlDocuments := xmlDocuments, relationships := relationships }

/-- `loadDocxPackage` from `zip-loader.ts`, end to end:
`JSZip.loadAsync` (container parse plus record construction), then the
entry loop over `Object.values(zip.files)`. -/
def loadDocxPackage (inflateRaw : List ℕ → List ℕ)
    (decodeBytes : List ℕ → String) (domParse : String → Option XmlDoc)
    (input : List ℕ) : Except LoadError PackageModel :=
  match parseEntries inflateRaw decodeBytes input with
  | .error e => .error (.container e)
  | .ok entries =>
    loadPackageFromZip decodeBytes domParse
      ((buildZipRecord entries).map (·.2))

/-! ## Claim C1: what a malformed XML part does to the load -/

/-- A well-formed one-entry archive whose stored file `a.xml` holds the
two bytes `<a` (malformed XML for any real parser). -/
def zipXmlBytes : List ℕ :=
  [80, 75, 3, 4, 0, 0, 0, 0, 0, 0, 0, 0, 0, 0, 0, 0, 0, 0, 0, 0, 0, 0,
   0, 0, 0, 0, 5, 0, 0, 0, 97, 46, 120, 109, 108, 60, 97, 80, 75, 1, 2,
   0, 0, 0, 0, 0, 0, 0, 0, 0, 0, 0, 0, 0, 0, 0, 0, 2, 0, 0, 0, 2, 0, 0,
   0, 5, 0, 0, 0, 0, 0, 0, 0, 0, 0, 0, 0, 0, 0, 0, 0, 0, 0, 97, 46, 120,
   109, 108, 80, 75, 5, 6, 0, 0, 0, 0, 0, 0, 1, 0, 0, 0, 0, 0, 37, 0, 0,
   0, 0, 0]

/-- Counterexample to claim C1 as stated: loading a container whose
only part `a.xml` fails XML parsing (`domParse` rejects its text) does
NOT return a `PackageModel` retaining the part — `parseXml` throws and
`loadDocxPackage` has no handler, so the whole load aborts with the
parse error. -/
theorem loadDocxPackage_malformed_xml_counterexample :
    loadDocxPackage (fun d => d) asciiDecode (fun _ => none) zipXmlBytes =
      .error (.xmlParse (some "a.xml")) := by
  decide

theorem processEntries_error_of_malformed (decodeBytes : List ℕ → String)
    (domParse : String → Option XmlDoc) :
    ∀ zipFiles : List JSZipObject,
      (∃ e ∈ zipFiles, e.dir = false ∧
        isXmlExtension (getExtension e.name) = true ∧
        domParse (normalizeXml (decodeBytes e.data)) = none) →
      ∃ p, processEntries decodeBytes domParse zipFiles =
        .error (.xmlParse p) := by
  intro zipFiles
  induction zipFiles with
  | nil =>
    rintro ⟨e, he, _⟩
    cases he
  | cons entry rest ih =>
    rintro ⟨e, he, hdir, hxml, hparse⟩
    rcases List.mem_cons.mp he with rfl | hmem
    · refine ⟨some e.name, ?_⟩
      unfold processEntries
      rw [if_neg (by rw [hdir]; exact Bool.false_ne_true)]
      rw [if_pos (show (mkPackageFile decodeBytes e).metadata.isXml = true
        from hxml)]
      have hx : parseXml domParse (decodeBytes e.data) (some e.name) =
          .error (some e.name) := by
        simp only [parseXml, hparse]
      rw [hx]
    · obtain ⟨p, hp⟩ := ih ⟨e, hmem, hdir, hxml, hparse⟩
      unfold processEntries
      by_cases hd : entry.dir = true
      · rw [if_pos hd]
        exact ⟨p, hp⟩
      · rw [if_neg hd]
        by_cases hx : (mkPackageFile decodeBytes entry).metadata.isXml = true
        · rw [if_pos hx]
          rcases hpx : parseXml domParse (decodeBytes entry.data)
              (some entry.name) with q | parsed
          · exact ⟨q, rfl⟩
          · rw [hp]
            exact ⟨p, rfl⟩
        · rw [if_neg hx]
          rw [hp]
          exact ⟨p, rfl⟩

/-- Claim C1, amended: a part whose bytes are malformed XML ABORTS the
whole load — `parseXml` throws, `loadDocxPackage` does not catch, and
the error (naming some malformed part) propagates instead of a
`PackageModel`; in particular this holds end to end for any archive
whose parsed entries contain such a part. -/
theorem loadDocxPackage_malformed_xml_aborts :
    (∀ (decodeBytes : List ℕ → String) (domParse : String → Option XmlDoc)
      (zipFiles : List JSZipObject),
      (∃ e ∈ zipFiles, e.dir = false ∧
        isXmlExtension (getExtension e.name) = true ∧
        domParse (normalizeXml (decodeBytes e.data)) = none) →
      ∃ p, loadPackageFromZip decodeBytes domParse zipFiles =
        .error (.xmlParse p)) ∧
    (∀ (inflateRaw : List ℕ → List ℕ) (decodeBytes : List ℕ → String)
      (domParse : String → Option XmlDoc) (input : List ℕ)
      (entries : List ParsedEntry),
      parseEntries inflateRaw decodeBytes input = .ok entries →
      (∃ e ∈ (buildZipRecord entries).map (·.2), e.dir = false ∧
        isXmlExtension (getExtension e.name) = true ∧
        domParse (normalizeXml (decodeBytes e.data)) = none) →
      ∃ p, loadDocxPackage inflateRaw decodeBytes domParse input =
        .error (.xmlParse p)) := by
  have hzip : ∀ (decodeBytes : List ℕ → String)
      (domParse : String → Option XmlDoc) (zipFiles : List JSZipObject),
      (∃ e ∈ zipFiles, e.dir = false ∧
        isXmlExtension (getExtension e.name) = true ∧
        domParse (normalizeXml (decodeBytes e.data)) = none) →
      ∃ p, loadPackageFromZip decodeBytes domParse zipFiles =
        .error (.xmlParse p) := by
    intro decodeBytes domParse zipFiles hex
    obtain ⟨p, hp⟩ :=
      processEntries_error_of_malformed decodeBytes domParse zipFiles hex
    refine ⟨p, ?_⟩
    unfold loadPackageFromZip
    rw [hp]
  refine ⟨hzip, ?_⟩
  intro inflateRaw decodeBytes domParse input entries hentries hex
  obtain ⟨p, hp⟩ := hzip decodeBytes domParse
    ((buildZipRecord entries).map (·.2)) hex
  refine ⟨p, ?_⟩
  unfold loadDocxPackage
  rw [hentries]
  exact hp

/-- Witness for the amended claim C1 on the concrete `a.xml` archive. -/
theorem loadDocxPackage_malformed_xml_aborts_witness :
    ∃ p, loadDocxPackage (fun d => d) asciiDecode (fun _ => none)
      zipXmlBytes = .error (.xmlParse p) :=
  loadDocxPackage_malformed_xml_aborts.2 (fun d => d) asciiDecode
    (fun _ => none) zipXmlBytes
    [{ name := "a.xml", dir := false, compressedSize := 2,
       uncompressedSize := 2, compressionMethod := 0, dosDate := 0,
       dosTime := 0, data := [60, 97] }]
    (by decide) (by decide)

/-! ## Sorting lemmas for Claim C10 -/

theorem mem_insertLe {α : Type} (le : α → α → Bool) (a x : α) :
    ∀ l : List α, x ∈ insertLe le a l ↔ x = a ∨ x ∈ l := by
  intro l
  induction l with
  | nil => simp [insertLe]
  | cons y ys ih =>
    unfold insertLe
    split
    · simp
    · rw [List.mem_cons, ih, List.mem_cons]
      tauto

theorem insertLe_perm {α : Type} (le : α → α → Bool) (a : α) :
    ∀ l : List α, List.Perm (insertLe le a l) (a :: l) := by
  intro l
  induction l with
  | nil => rfl
  | cons y ys ih =>
    unfold insertLe
    split
    · rfl
    · exact List.Perm.trans (List.Perm.cons y ih) (List.Perm.swap a y ys)

theorem sortLe_perm {α : Type} (le : α → α → Bool) (l : List α) :
    List.Perm (sortLe le l) l := by
  induction l with
  | nil => rfl
  | cons x xs ih =>
    exact List.Perm.trans (insertLe_perm le x (sortLe le xs))
      (List.Perm.cons x ih)

theorem mem_sortLe {α : Type} (le : α → α → Bool) (l : List α) (x : α) :
    x ∈ sortLe le l ↔ x ∈ l :=
  (sortLe_perm le l).mem_iff

theorem insertLe_head? {α : Type} (le : α → α → Bool) (a : α) (l : List α) :
    (insertLe le a l).head? = some a ∨ (insertLe le a l).head? = l.head? := by
  cases l with
  | nil => exact Or.inl rfl
  | cons y ys =>
    unfold insertLe
    split
    · exact Or.inl rfl
    · exact Or.inr rfl

theorem chain'_insertLe {α : Type} (le : α → α → Bool)
    (htot : ∀ a b, le a b = true ∨ le b a = true) (a : α) :
    ∀ l : List α, List.Chain' (fun x y => le x y = true) l →
      List.Chain' (fun x y => le x y = true) (insertLe le a l) := by
  intro l
  induction l with
  | nil => intro _; simp [insertLe]
  | cons y ys ih =>
    intro hchain
    rw [List.chain'_cons'] at hchain
    unfold insertLe
    split
    · rw [List.chain'_cons]
      rename_i hle
      refine ⟨hle, List.chain'_cons'.mpr hchain⟩
    · rw [List.chain'_cons']
      rename_i hnle
      refine ⟨?_, ih hchain.2⟩
      intro b hb
      rcases insertLe_head? le a ys with hh | hh
      · rw [hh] at hb
        cases hb
        rcases htot a y with h | h
        · exact absurd h hnle
        · exact h
      · rw [hh] at hb
        exact hchain.1 b hb

theorem sortLe_chain' {α : Type} (le : α → α → Bool)
    (htot : ∀ a b, le a b = true ∨ le b a = true) (l : List α) :
    List.Chain' (fun x y => le x y = true) (sortLe le l) := by
  induction l with
  | nil => simp [sortLe]
  | cons x xs ih => exact chain'_insertLe le htot x (sortLe le xs) ih

theorem charListLe_total : ∀ a b : List Char,
    charListLe a b = true ∨ charListLe b a = true := by
  intro a
  induction a with
  | nil => intro b; exact Or.inl rfl
  | cons c cs ih =>
    intro b
    cases b with
    | nil => exact Or.inr rfl
    | cons d ds =>
      unfold charListLe
      by_cases h1 : c.toNat < d.toNat
      · rw [if_pos h1]
        exact Or.inl rfl
      · by_cases h2 : d.toNat < c.toNat
        · simp only [if_neg h1, if_pos h2]
          exact Or.inr trivial
        · simp only [if_neg h1, if_neg h2]
          exact ih ds

theorem fileLe_total : ∀ a b : PackageFile,
    fileLe a b = true ∨ fileLe b a = true := by
  intro a b
  exact charListLe_total a.metadata.path.toList b.metadata.path.toList

/-! ## Record-construction lemmas for Claim C10 -/

theorem mem_recordSet {α : Type} (k : String) (v : α) :
    ∀ (m : List (String × α)) (kv : String × α),
      kv ∈ recordSet m k v → kv ∈ m ∨ kv = (k, v) := by
  intro m
  induction m with
  | nil =>
    intro kv hkv
    simp [recordSet] at hkv
    exact Or.inr hkv
  | cons p rest ih =>
    intro kv hkv
    obtain ⟨pk, pv⟩ := p
    simp only [recordSet] at hkv
    split at hkv
    · rcases List.mem_cons.mp hkv with rfl | hkv
      · exact Or.inr rfl
      · exact Or.inl (List.mem_cons_of_mem _ hkv)
    · rcases List.mem_cons.mp hkv with rfl | hkv
      · exact Or.inl (List.mem_cons_self _ _)
      · rcases ih kv hkv with h | h
        · exact Or.inl (List.mem_cons_of_mem _ h)
        · exact Or.inr h

theorem recordSet_keys {α : Type} (k : String) (v : α) :
    ∀ m : List (String × α),
      (recordSet m k v).map Prod.fst =
        if k ∈ m.map Prod.fst then m.map Prod.fst
        else m.map Prod.fst ++ [k] := by
  intro m
  induction m with
  | nil => simp [recordSet]
  | cons p rest ih =>
    obtain ⟨pk, pv⟩ := p
    simp only [recordSet]
    by_cases hk : pk = k
    · subst hk
      rw [if_pos rfl]
      simp
    · rw [if_neg hk]
      simp only [List.map_cons, ih, List.mem_cons]
      by_cases hmem : k ∈ rest.map Prod.fst
      · rw [if_pos hmem, if_pos (Or.inr hmem)]
      · rw [if_neg hmem, if_neg ?_]
        · simp
        · rintro (h | h)
          · exact hk h.symm
          · exact hmem h

theorem recordSet_keys_nodup {α : Type} (k : String) (v : α)
    (m : List (String × α)) (h : (m.map Prod.fst).Nodup) :
    ((recordSet m k v).map Prod.fst).Nodup := by
  rw [recordSet_keys]
  by_cases hmem : k ∈ m.map Prod.fst
  · rw [if_pos hmem]
    exact h
  · rw [if_neg hmem]
    simp [List.nodup_append, h, hmem]

theorem buildZipRecord_fold_prop (Q : JSZipObject → Prop) :
    ∀ (l : List ParsedEntry) (init : List (String × JSZipObject)),
      (∀ kv ∈ init, kv.2.name = kv.1 ∧ Q kv.2) →
      (∀ e ∈ l, Q (mkZipObject e)) →
      ∀ kv ∈ l.foldl
        (fun files entry => recordSet files entry.name (mkZipObject entry))
        init, kv.2.name = kv.1 ∧ Q kv.2 := by
  intro l
  induction l with
  | nil => intro init hinit _ kv hkv; exact hinit kv hkv
  | cons e es ih =>
    intro init hinit hl kv hkv
    rw [List.foldl_cons] at hkv
    refine ih _ ?_ (fun x hx => hl x (List.mem_cons_of_mem e hx)) kv hkv
    intro kv' hkv'
    rcases mem_recordSet _ _ _ _ hkv' with h | rfl
    · exact hinit kv' h
    · exact ⟨rfl, hl e (List.mem_cons_self _ _)⟩

theorem buildZipRecord_keys_nodup :
    ∀ (l : List ParsedEntry) (init : List (String × JSZipObject)),
      ((init.map Prod.fst).Nodup) →
      ((l.foldl
        (fun files entry => recordSet files entry.name (mkZipObject entry))
        init).map Prod.fst).Nodup := by
  intro l
  induction l with
  | nil => intro init h; exact h
  | cons e es ih =>
    intro init h
    rw [List.foldl_cons]
    exact ih _ (recordSet_keys_nodup _ _ _ h)

/-! ## The directory flag of parsed entries (parseEntries sets
`dir := name.endsWith('/')`) -/

theorem parseEntriesLoop_dir (inflateRaw : List ℕ → List ℕ)
    (decodeBytes : List ℕ → String) (data : List ℕ) :
    ∀ (fuel pointer : ℕ) (acc es : List ParsedEntry),
      (∀ e ∈ acc, e.dir = jsEndsWith e.name "/") →
      parseEntriesLoop inflateRaw decodeBytes data fuel pointer acc =
        .ok es →
      ∀ e ∈ es, e.dir = jsEndsWith e.name "/" := by
  intro fuel
  induction fuel with
  | zero =>
    intro pointer acc es hacc hok e he
    unfold parseEntriesLoop at hok
    injection hok with hok
    rw [← hok] at he
    exact hacc e (List.mem_reverse.mp he)
  | succ n ih =>
    intro pointer acc es hacc hok e he
    unfold parseEntriesLoop at hok
    simp only [] at hok
    split at hok
    · exact absurd hok (by simp)
    · split at hok
      · split at hok
        · split at hok
          · exact absurd hok (by simp)
          · split at hok
            · split at hok
              · split at hok
                · exact absurd hok (by simp)
                · refine ih _ _ es ?_ hok e he
                  intro e' he'
                  rcases List.mem_cons.mp he' with rfl | he'
                  · rfl
                  · exact hacc e' he'
              · exact absurd hok (by simp)
            · exact absurd hok (by simp)
        · exact absurd hok (by simp)
      · exact absurd hok (by simp)

theorem parseEntries_dir (inflateRaw : List ℕ → List ℕ)
    (decodeBytes : List ℕ → String) (data : List ℕ)
    (es : List ParsedEntry)
    (h : parseEntries inflateRaw decodeBytes data = .ok es) :
    ∀ e ∈ es, e.dir = jsEndsWith e.name "/" := by
  unfold parseEntries at h
  split at h
  · exact absurd h (by simp)
  · split at h
    · exact parseEntriesLoop_dir inflateRaw decodeBytes data _ _ [] es
        (by intro e he; cases he) h
    · exact absurd h (by simp)

/-! ## What a successful entry loop produces -/

theorem processEntries_ok_spec (decodeBytes : List ℕ → String)
    (domParse : String → Option XmlDoc) :
    ∀ (zs : List JSZipObject) (files : List PackageFile)
      (xs : List (String × ParsedXml))
      (rs : List (String × RelationshipMap)),
      processEntries decodeBytes domParse zs = .ok (files, xs, rs) →
      files.map (fun f => f.metadata.path) =
        (zs.filter (fun e => !e.dir)).map (fun e => e.name) ∧
      (∀ f ∈ files, ∃ e ∈ zs, e.dir = false ∧
        f = mkPackageFile decodeBytes e) ∧
      (∀ pd ∈ xs, ∃ f ∈ files, f.metadata.path = pd.1 ∧
        f.metadata.isXml = true) := by
  intro zs
  induction zs with
  | nil =>
    intro files xs rs h
    unfold processEntries at h
    simp only [Except.ok.injEq, Prod.mk.injEq] at h
    obtain ⟨rfl, rfl, rfl⟩ := h
    refine ⟨rfl, ?_, ?_⟩
    · intro f hf
      cases hf
    · intro pd hpd
      cases hpd
  | cons entry rest ih =>
    intro files xs rs h
    unfold processEntries at h
    simp only [] at h
    split at h
    · rename_i hdir
      obtain ⟨H1, H2, H3⟩ := ih files xs rs h
      refine ⟨?_, ?_, H3⟩
      · rw [List.filter_cons_of_neg (by simp [hdir])]
        exact H1
      · intro f hf
        obtain ⟨e, he, hed, hfe⟩ := H2 f hf
        exact ⟨e, List.mem_cons_of_mem entry he, hed, hfe⟩
    · rename_i hdir
      have hdirf : entry.dir = false := Bool.eq_false_iff.mpr hdir
      split at h
      · rename_i hxml
        split at h
        · exact absurd h (by simp)
        · rename_i parsed hparsed
          split at h
          · exact absurd h (by simp)
          · rename_i files' xs' rs' hrec
            simp only [Except.ok.injEq, Prod.mk.injEq] at h
            obtain ⟨rfl, rfl, rfl⟩ := h
            obtain ⟨H1, H2, H3⟩ := ih files' xs' rs' hrec
            refine ⟨?_, ?_, ?_⟩
            · rw [List.filter_cons_of_pos (by simp [hdirf])]
              simp only [List.map_cons]
              rw [H1]
              rfl
            · intro f hf
              rcases List.mem_cons.mp hf with rfl | hf
              · exact ⟨entry, List.mem_cons_self _ _, hdirf, rfl⟩
              · obtain ⟨e, he, hed, hfe⟩ := H2 f hf
                exact ⟨e, List.mem_cons_of_mem _ he, hed, hfe⟩
            · intro pd hpd
              rcases List.mem_cons.mp hpd with rfl | hpd
              · exact ⟨mkPackageFile decodeBytes entry,
                  List.mem_cons_self _ _, rfl, hxml⟩
              · obtain ⟨f, hf, hfp, hfx⟩ := H3 pd hpd
                exact ⟨f, List.mem_cons_of_mem _ hf, hfp, hfx⟩
      · rename_i hxml
        split at h
        · exact absurd h (by simp)
        · rename_i files' xs' rs' hrec
          simp only [Except.ok.injEq, Prod.mk.injEq] at h
          obtain ⟨rfl, rfl, rfl⟩ := h
          obtain ⟨H1, H2, H3⟩ := ih files' xs' rs' hrec
          refine ⟨?_, ?_, ?_⟩
          · rw [List.filter_cons_of_pos (by simp [hdirf])]
            simp only [List.map_cons]
            rw [H1]
            rfl
          · intro f hf
            rcases List.mem_cons.mp hf with rfl | hf
            · exact ⟨entry, List.mem_cons_self _ _, hdirf, rfl⟩
            · obtain ⟨e, he, hed, hfe⟩ := H2 f hf
              exact ⟨e, List.mem_cons_of_mem _ he, hed, hfe⟩
          · intro pd hpd
            obtain ⟨f, hf, hfp, hfx⟩ := H3 pd hpd
            exact ⟨f, List.mem_cons_of_mem _ hf, hfp, hfx⟩

/-! ## byPath lookup lemmas -/

theorem buildByPath_fold_get_not_mem :
    ∀ (l : List PackageFile) (init : List (String × PackageFile)) (k : String),
      k ∉ l.map (fun f => f.metadata.path) →
      recordGet
        (l.foldl (fun r file => recordSet r file.metadata.path file) init)
        k = recordGet init k := by
  intro l
  induction l with
  | nil => intro init k _; rfl
  | cons g gs ih =>
    intro init k hk
    simp only [List.map_cons, List.mem_cons, not_or] at hk
    rw [List.foldl_cons, ih _ k hk.2,
      recordGet_recordSet_ne init g.metadata.path g k hk.1]

theorem buildByPath_fold_get_mem :
    ∀ (l : List PackageFile) (init : List (String × PackageFile)),
      (l.map (fun f => f.metadata.path)).Nodup →
      ∀ f ∈ l,
        recordGet
          (l.foldl (fun r file => recordSet r file.metadata.path file) init)
          f.metadata.path = some f := by
  intro l
  induction l with
  | nil => intro init _ f hf; cases hf
  | cons g gs ih =>
    intro init hnd f hf
    simp only [List.map_cons, List.nodup_cons] at hnd
    rw [List.foldl_cons]
    rcases List.mem_cons.mp hf with rfl | hf
    · rw [buildByPath_fold_get_not_mem gs _ f.metadata.path hnd.1,
        recordGet_recordSet_self]
    · exact ih _ hnd.2 f hf

theorem buildByPath_fold_get_some :
    ∀ (l : List PackageFile) (init : List (String × PackageFile))
      (k : String) (f : PackageFile),
      recordGet
        (l.foldl (fun r file => recordSet r file.metadata.path file) init)
        k = some f →
      (f ∈ l ∧ f.metadata.path = k) ∨ recordGet init k = some f := by
  intro l
  induction l with
  | nil => intro init k f h; exact Or.inr h
  | cons g gs ih =>
    intro init k f h
    rw [List.foldl_cons] at h
    rcases ih _ k f h with ⟨hmem, hp⟩ | hbase
    · exact Or.inl ⟨List.mem_cons_of_mem _ hmem, hp⟩
    · rcases recordGet_recordSet_cases _ _ _ _ _ hbase with ⟨rfl, rfl⟩ | hinit
      · exact Or.inl ⟨List.mem_cons_self _ _, rfl⟩
      · exact Or.inr hinit

/-! ## Claim C10: invariants of every successfully loaded model -/

/-- Claim C10: every `PackageModel` that `loadDocxPackage` returns has
no directory entry (ZIP name ending in `/`) among its files or in
`byPath`; `files` sorted by path; `byPath` mapping exactly each listed
file's path to that file; and `xmlDocuments` keyed only by paths of
files whose (lowercased) extension is `.xml` or `.rels`. -/
theorem loadDocxPackage_model_invariants (inflateRaw : List ℕ → List ℕ)
    (decodeBytes : List ℕ → String) (domParse : String → Option XmlDoc)
    (input : List ℕ) (model : PackageModel)
    (h : loadDocxPackage inflateRaw decodeBytes domParse input = .ok model) :
    (∀ f ∈ model.files, jsEndsWith f.metadata.path "/" = false) ∧
    List.Chain' (fun a b => fileLe a b = true) model.files ∧
    (∀ f ∈ model.files, recordGet model.byPath f.metadata.path = some f) ∧
    (∀ k f, recordGet model.byPath k = some f →
      f ∈ model.files ∧ f.metadata.path = k) ∧
    (∀ pd ∈ model.xmlDocuments, ∃ f ∈ model.files,
      f.metadata.path = pd.1 ∧
      (f.metadata.extension = ".xml" ∨ f.metadata.extension = ".rels")) := by
  unfold loadDocxPackage at h
  split at h
  · exact absurd h (by simp)
  · rename_i entries hentries
    unfold loadPackageFromZip at h
    split at h
    · exact absurd h (by simp)
    · rename_i files0 xs rs hproc
      simp only [Except.ok.injEq] at h
      subst h
      obtain ⟨H1, H2, H3⟩ :=
        processEntries_ok_spec decodeBytes domParse _ files0 xs rs hproc
      have hdirs : ∀ v ∈ (buildZipRecord entries).map (·.2),
          v.dir = jsEndsWith v.name "/" := by
        intro v hv
        rcases List.mem_map.mp hv with ⟨kv, hkv, rfl⟩
        exact (buildZipRecord_fold_prop
          (fun o => o.dir = jsEndsWith o.name "/") entries []
          (by intro kv hkv; cases hkv)
          (fun e he =>
            parseEntries_dir inflateRaw decodeBytes input entries hentries
              e he)
          kv hkv).2
      have hnames : ∀ kv ∈ buildZipRecord entries, kv.2.name = kv.1 :=
        fun kv hkv =>
          (buildZipRecord_fold_prop (fun _ => True) entries []
            (by intro kv hkv; cases hkv) (fun _ _ => trivial) kv hkv).1
      have hkeysnodup : ((buildZipRecord entries).map Prod.fst).Nodup :=
        buildZipRecord_keys_nodup entries [] (by simp)
      have hnamesnodup :
          (((buildZipRecord entries).map (·.2)).map
            (fun v => v.name)).Nodup := by
        rw [List.map_map]
        have heq : List.map ((fun v : JSZipObject => v.name) ∘ (·.2))
            (buildZipRecord entries) =
            (buildZipRecord entries).map Prod.fst :=
          List.map_congr_left (fun kv hkv => hnames kv hkv)
        rw [heq]
        exact hkeysnodup
      have hpaths0 : (files0.map (fun f => f.metadata.path)).Nodup := by
        rw [H1]
        exact List.Nodup.sublist
          (List.Sublist.map _ (List.filter_sublist _)) hnamesnodup
      have hmemiff : ∀ f, f ∈ sortLe fileLe files0 ↔ f ∈ files0 :=
        fun f => mem_sortLe fileLe files0 f
      have hpathsorted :
          ((sortLe fileLe files0).map (fun f => f.metadata.path)).Nodup :=
        (((sortLe_perm fileLe files0).map
          (fun f => f.metadata.path)).nodup_iff).mpr hpaths0
      refine ⟨?_, ?_, ?_, ?_, ?_⟩
      · intro f hf
        obtain ⟨e, he, hed, rfl⟩ := H2 f ((hmemiff f).mp hf)
        show jsEndsWith e.name "/" = false
        rw [← hdirs e he]
        exact hed
      · exact sortLe_chain' fileLe fileLe_total files0
      · intro f hf
        exact buildByPath_fold_get_mem _ [] hpathsorted f hf
      · intro k f hkf
        rcases buildByPath_fold_get_some _ [] k f hkf with ⟨hmemf, hp⟩ | habs
        · exact ⟨hmemf, hp⟩
        · exact absurd habs (by simp [recordGet])
      · intro pd hpd
        obtain ⟨f, hf0, hfp, hfx⟩ := H3 pd hpd
        obtain ⟨e, he, hed, rfl⟩ := H2 f hf0
        refine ⟨mkPackageFile decodeBytes e, (hmemiff _).mpr hf0, hfp, ?_⟩
        have hxe : isXmlExtension (getExtension e.name) = true := hfx
        show getExtension e.name = ".xml" ∨ getExtension e.name = ".rels"
        simpa only [isXmlExtension, Bool.or_eq_true, beq_iff_eq] using hxe

/-- Metadata of the single file of the loaded `a.xml` archive. -/
def xmlPackageFileMetadata : PackageFileMetadata :=
  { path := "a.xml", name := "a.xml", folder := "", extension := ".xml",
    isXml := true, lastModifiedDosDate := 0, lastModifiedDosTime := 0,
    size := 2 }

/-- The single file of the loaded `a.xml` archive. -/
def xmlPackageFile : PackageFile :=
  { metadata := xmlPackageFileMetadata, arrayBuffer := [60, 97],
    text := some "<a" }

/-- The model produced by loading the `a.xml` archive with a parser
accepting its text. -/
def xmlPackageModel : PackageModel :=
  { files := [xmlPackageFile],
    byPath := [("a.xml", xmlPackageFile)],
    xmlDocuments := [("a.xml",
      { path := some "a.xml", text := "<a", document := [] })],
    relationships := [] }

/-- Witness for claim C10: the invariants hold of the concrete model
loaded from the `a.xml` archive. -/
theorem loadDocxPackage_model_invariants_witness :
    (∀ f ∈ xmlPackageModel.files, jsEndsWith f.metadata.path "/" = false) ∧
    List.Chain' (fun a b => fileLe a b = true) xmlPackageModel.files ∧
    (∀ f ∈ xmlPackageModel.files,
      recordGet xmlPackageModel.byPath f.metadata.path = some f) ∧
    (∀ k f, recordGet xmlPackageModel.byPath k = some f →
      f ∈ xmlPackageModel.files ∧ f.metadata.path = k) ∧
    (∀ pd ∈ xmlPackageModel.xmlDocuments, ∃ f ∈ xmlPackageModel.files,
      f.metadata.path = pd.1 ∧
      (f.metadata.extension = ".xml" ∨ f.metadata.extension = ".rels")) :=
  loadDocxPackage_model_invariants (fun d => d) asciiDecode
    (fun _ => some []) zipXmlBytes xmlPackageModel (by decide)

end Tess
